import Mathlib

/-!
Verification development for the WetFishBot fishing automation script
(`splash.py`).  The script alternates between a visual template search
(screen capture, grayscale conversion, normalized cross-correlation
against a list of bobber templates, best-match selection), an
audio-threshold wait loop, a lure cooldown, and a top-level cycle
controller with a cooperative cancellation flag.

Modelling conventions:

* Grayscale rasters are `Gray`: a width, a height and an integer-valued
  pixel function (the script works on 8-bit grayscale images).

* `cv2.matchTemplate(..., TM_CCOEFF_NORMED)` computes, at each offset,
  `R = sum(T' * W') / sqrt(sum(T'^2) * sum(W'^2))` where `T'` and `W'`
  are the template and the window with their means subtracted.  We clear
  denominators: with `A` the template area, `tC = A*T - sum T` equals
  `A * T'` pointwise and `wC = A*W - sum W` equals `A * W'`, so
  `R = nccN / sqrt (dT * dW)` for the integer sums `nccN = sum (tC*wC)`,
  `dT = sum tC^2`, `dW = sum wC^2` (the `A^2` factors cancel; theorem
  `nccPair_eq_ccoeff` proves this equality with the textbook form).
  A correlation value is therefore represented exactly by an integer
  pair `(n, d)` standing for the real number `n / sqrt d`; `pLt`
  compares two such values exactly (theorem `pLt_iff`), which models the
  float comparisons of the script on the ideal real values.

* The script's float threshold `0.6` is the represented value of the
  pair `(3, 25)` (`3 / sqrt 25`), and the initial `best_val = 0` is the
  pair `(0, 1)`.

* The main loop is modelled as an event-trace interpreter.  External
  inputs are an `Oracle`: the cancellation flag as a function of a
  global time (one tick per emitted event, so the flag can change
  between any two observable actions, as it does in the script where a
  listener thread sets it), and streams (indexed by call count) for the
  wall clock, the screen captures, the audio-device lookup and the
  audio windows.
-/

namespace WetFish

/-- A grayscale raster: `px x y` is the pixel intensity at column `x`,
row `y` (8-bit values in the script; modelled as integers). -/
structure Gray where
  width : ℕ
  height : ℕ
  px : ℕ → ℕ → ℤ

/-- The index set of a template-shaped block: all (column, row) pairs. -/
def grid (t : Gray) : Finset (ℕ × ℕ) := Finset.range t.width ×ˢ Finset.range t.height

/-- Pixel count of a template. -/
def area (t : Gray) : ℤ := (t.width * t.height : ℕ)

/-- Sum of all template pixels. -/
def tSum (t : Gray) : ℤ := ∑ p ∈ grid t, t.px p.1 p.2

/-- Sum of the pixels of the window of `r` with `t`'s shape at offset `o`. -/
def wSum (r t : Gray) (o : ℕ × ℕ) : ℤ := ∑ p ∈ grid t, r.px (o.1 + p.1) (o.2 + p.2)

/-- Area-scaled mean-subtracted template pixel: `area * T - sum T`. -/
def tC (t : Gray) (p : ℕ × ℕ) : ℤ := area t * t.px p.1 p.2 - tSum t

/-- Area-scaled mean-subtracted window pixel at offset `o`. -/
def wC (r t : Gray) (o p : ℕ × ℕ) : ℤ := area t * r.px (o.1 + p.1) (o.2 + p.2) - wSum r t o

/-- Numerator sum of the cleared TM_CCOEFF_NORMED correlation. -/
def nccN (r t : Gray) (o : ℕ × ℕ) : ℤ := ∑ p ∈ grid t, tC t p * wC r t o p

/-- Template part of the denominator. -/
def dT (t : Gray) : ℤ := ∑ p ∈ grid t, tC t p ^ 2

/-- Window part of the denominator. -/
def dW (r t : Gray) (o : ℕ × ℕ) : ℤ := ∑ p ∈ grid t, wC r t o p ^ 2

/-- The TM_CCOEFF_NORMED correlation of template `t` against raster `r`
at offset `o`, represented exactly: the pair `(n, d)` stands for the
real value `n / sqrt d`. -/
def nccPair (r t : Gray) (o : ℕ × ℕ) : ℤ × ℤ := (nccN r t o, dT t * dW r t o)

/-- Normalize a represented value: a zero denominator means the real
value is `0` (division by zero), so such a pair is replaced by `(0, 1)`. -/
def pnorm (a : ℤ × ℤ) : ℤ × ℤ := if a.2 = 0 then (0, 1) else a

/-- Core comparison of two represented values with positive
denominators: `a.1 / sqrt a.2 < b.1 / sqrt b.2`, decided by sign
analysis and cross-multiplied squares. -/
def pLtc (a b : ℤ × ℤ) : Bool :=
  if a.1 < 0 then
    if b.1 < 0 then decide (b.1 ^ 2 * a.2 < a.1 ^ 2 * b.2) else true
  else
    if b.1 < 0 then false else decide (a.1 ^ 2 * b.2 < b.1 ^ 2 * a.2)

/-- Exact strict comparison of the real values represented by two pairs
(with nonnegative denominators); models the `<` comparisons that the
script performs on float correlation values. -/
def pLt (a b : ℤ × ℤ) : Bool := pLtc (pnorm a) (pnorm b)

/-- All offsets at which a `t`-shaped window fits inside `r`, in the
row-major order in which `cv2.minMaxLoc` scans the result matrix. -/
def offsets (r t : Gray) : List (ℕ × ℕ) :=
  (List.range (r.height - t.height + 1)).flatMap fun y =>
    (List.range (r.width - t.width + 1)).map fun x => (x, y)

/-- `cv2.matchTemplate` requires a nonempty template no larger than the
searched image; otherwise it raises and the script skips the template. -/
def fits (r t : Gray) : Prop :=
  0 < t.width ∧ t.width ≤ r.width ∧ 0 < t.height ∧ t.height ≤ r.height

instance (r t : Gray) : Decidable (fits r t) := by
  unfold fits; exact inferInstance

/-- One step of the `minMaxLoc` scan: keep the current best unless the
new offset's value is strictly greater (so the first occurrence of the
maximum wins). -/
def scanStep (r t : Gray) (acc : (ℤ × ℤ) × (ℕ × ℕ)) (q : ℕ × ℕ) : (ℤ × ℤ) × (ℕ × ℕ) :=
  if pLt acc.1 (nccPair r t q) then (nccPair r t q, q) else acc

/-- Model of `cv2.matchTemplate` + `cv2.minMaxLoc` for one template
(splash.py line 129-130): the maximum correlation value over all
offsets together with the first offset (in scan order) attaining it, or
`none` when the template does not fit (the script catches the exception
and skips the template, line 136-138). -/
def templateEval (r t : Gray) : Option ((ℤ × ℤ) × (ℕ × ℕ)) :=
  if fits r t then
    match offsets r t with
    | [] => none
    | q :: qs => some (qs.foldl (scanStep r t) (nccPair r t q, q))
  else none

/-- The script's `BOBBER_MATCH_THRESHOLD = 0.6` as a represented value:
`3 / sqrt 25 = 0.6`. -/
def BOBBER_MATCH_THRESHOLD : ℤ × ℤ := (3, 25)

/-- One iteration of the template loop of `find_bob` (splash.py lines
126-138): keep `(best_match, best_val)`; a template replaces the best
only if its maximum exceeds the threshold and strictly exceeds the
current best value.  `best_match` stores the location and the numpy
shape `(h, w)` of the template. -/
def bobStep (shot : Gray) (acc : Option ((ℕ × ℕ) × ℕ × ℕ) × (ℤ × ℤ)) (t : Gray) :
    Option ((ℕ × ℕ) × ℕ × ℕ) × (ℤ × ℤ) :=
  match templateEval shot t with
  | none => acc
  | some (v, loc) =>
    if pLt BOBBER_MATCH_THRESHOLD v && pLt acc.2 v then (some (loc, t.height, t.width), v)
    else acc

/-- The template search of `find_bob` (splash.py lines 122-138), with
`best_match = None` and `best_val = 0` initially. -/
def bobSearch (shot : Gray) (ts : List Gray) : Option ((ℕ × ℕ) × ℕ × ℕ) × (ℤ × ℤ) :=
  ts.foldl (bobStep shot) (none, (0, 1))

/-- The screen region selected for the search: `(left, top, width,
height)`. -/
structure Region where
  left : ℕ
  top : ℕ
  w : ℕ
  h : ℕ
deriving DecidableEq

/-- Result of the visual search: `NotFound`, or `Found` with the
absolute center coordinates, the winning correlation value (the
reported confidence) and the winning template's numpy shape `(h, w)`. -/
inductive MatchResult where
  | NotFound : MatchResult
  | Found : ℕ × ℕ → ℤ × ℤ → ℕ × ℕ → MatchResult
deriving DecidableEq

/-- The pure part of `find_bob` after a successful capture (splash.py
lines 122-154): run the template search; on success convert the match
offset to absolute screen coordinates (`region + loc`) and take the
center of the matched block (`+ w // 2`, `+ h // 2`, integer
division). -/
def find_bob (region : Region) (shot : Gray) (ts : List Gray) : MatchResult :=
  match bobSearch shot ts with
  | (some (loc, h, w), v) =>
    .Found (region.left + loc.1 + w / 2, region.top + loc.2 + h / 2) v (h, w)
  | (none, _) => .NotFound

/-- An actuator action emitted by `find_bob`: the eased mouse move. -/
inductive Act where
  | moveTo : ℚ → ℚ → ℚ → Act
deriving DecidableEq

/-- `find_bob` including its actuator effects (splash.py lines 150-163):
on success the cursor is moved to the center plus a random jitter
(`uniform(-3, 3)` on each axis) with a random easing duration; the
jitter and duration are passed in as the sampled random values. -/
def find_bob_acts (region : Region) (shot : Gray) (ts : List Gray) (jx jy dur : ℚ) :
    MatchResult × List Act :=
  match find_bob region shot ts with
  | .NotFound => (.NotFound, [])
  | .Found c v hw => (.Found c v hw, [Act.moveTo ((c.1 : ℚ) + jx) ((c.2 : ℚ) + jy) dur])

/-- The script's `AUDIO_THRESHOLD = 0.06`. -/
def AUDIO_THRESHOLD : ℚ := ⟨3, 50, by norm_num, by norm_num⟩

/-- The script's `LURE_COOLDOWN = 10 * 60` seconds. -/
def LURE_COOLDOWN : ℚ := 600

/-- The lure condition of `apply_lure` (splash.py line 587): apply when
there is no previous application timestamp, or when strictly more than
`LURE_COOLDOWN` seconds have elapsed since it. -/
def lureDue : Option ℚ → ℚ → Bool
  | none, _ => true
  | some l, now => decide (LURE_COOLDOWN < now - l)

/-- `apply_lure` as a function of the stored timestamp and the current
time: returns whether the lure keypress fires and the new stored
timestamp (updated only when it fires). -/
def apply_lure (last : Option ℚ) (now : ℚ) : Bool × Option ℚ :=
  if lureDue last now then (true, some now) else (false, last)

/-- Iterated `apply_lure` over the wall-clock times of successive
cycles: the list of fire decisions and the final stored timestamp. -/
def lure_run (last : Option ℚ) : List ℚ → List Bool × Option ℚ
  | [] => ([], last)
  | x :: xs =>
    let s := apply_lure last x
    let r := lure_run s.2 xs
    (s.1 :: r.1, r.2)

/-- Observable events of one run of the bot.  `check b` is a read of the
cancellation flag returning `b`; `capture ok` is a screen-capture
attempt; the others are the input gestures and the retry backoff
sleep. -/
inductive Ev where
  | check : Bool → Ev
  | lureKey : Ev
  | castKey : Ev
  | capture : Bool → Ev
  | moveTo : Ev
  | record : Ev
  | reelClick : Ev
  | backoff : Ev
deriving DecidableEq

/-- Outcome of the audio wait `reel_in`. -/
inductive ReelRes where
  | escExit : ReelRes
  | reeled : ReelRes
  | timeout : ReelRes
  | acqErr : ReelRes
  | noMic : ReelRes
deriving DecidableEq

/-- External inputs of a run.  `esc` is the cancellation flag as a
function of global time (one tick per emitted event); the streams are
indexed by call count: `clock` for `time.time()`, `cap` for screen
captures (`none` = capture raises), `mic` for the audio-device lookup,
`peak` for the peak amplitude of each recorded window (`none` =
recording raises). -/
structure Oracle where
  esc : ℕ → Bool
  clock : ℕ → ℚ
  cap : ℕ → Option Gray
  mic : ℕ → Bool
  peak : ℕ → Option ℚ

/-- The body of `apply_lure` inside the cycle (splash.py lines 575-605):
reads the clock once; fires the lure keypress and updates the timestamp
only when due. -/
def lureStep (o : Oracle) (t nClock : ℕ) (last : Option ℚ) :
    List Ev × ℕ × ℕ × Option ℚ :=
  let now := o.clock nClock
  if lureDue last now then ([.lureKey], t + 1, nClock + 1, some now)
  else ([], t, nClock + 1, last)

/-- `find_bob` inside the cycle (splash.py lines 95-168): check the
cancellation flag (exit if set), then attempt the capture; a capture
failure is caught and leaves `bob_found = False`; otherwise run the
matcher and, on success, move the mouse.  Returns `none` when the
process exits. -/
def find_bob_step (o : Oracle) (region : Region) (ts : List Gray) (t nCap : ℕ) :
    List Ev × ℕ × ℕ × Option Bool :=
  if o.esc t then ([.check true], t + 1, nCap, none)
  else
    match o.cap nCap with
    | none => ([.check false, .capture false], t + 2, nCap + 1, some false)
    | some shot =>
      match find_bob region shot ts with
      | .NotFound => ([.check false, .capture true], t + 2, nCap + 1, some false)
      | .Found _ _ _ => ([.check false, .capture true, .moveTo], t + 3, nCap + 1, some true)

/-- The wait loop of `reel_in` (splash.py lines 189-222): check the
cancellation flag, record one window, increment the counter; a peak
strictly above `AUDIO_THRESHOLD` reels in immediately; otherwise time
out as soon as the counter strictly exceeds `waitT`; a recording error
breaks out of the loop.  `fuel` bounds the recursion; the wrapper
passes `waitT + 1`, which the timeout check makes exact. -/
def reel_loop (o : Oracle) (waitT : ℕ) : ℕ → ℕ → ℕ → ℕ → List Ev × ℕ × ℕ × ReelRes
  | 0, t, nPeak, _ => ([], t, nPeak, .timeout)
  | fuel + 1, t, nPeak, counter =>
    if o.esc t then ([.check true], t + 1, nPeak, .escExit)
    else
      match o.peak nPeak with
      | none => ([.check false, .record], t + 2, nPeak + 1, .acqErr)
      | some p =>
        if AUDIO_THRESHOLD < p then
          ([.check false, .record, .reelClick], t + 3, nPeak + 1, .reeled)
        else if waitT < counter + 1 then
          ([.check false, .record], t + 2, nPeak + 1, .timeout)
        else
          let rest := reel_loop o waitT fuel (t + 2) (nPeak + 1) (counter + 1)
          (.check false :: .record :: rest.1, rest.2)

/-- `reel_in` (splash.py lines 171-222): look up the audio device first
(on failure return immediately with `reeled = False`), then run the
wait loop with `seconds_timer = 0`. -/
def reel_in (o : Oracle) (waitT t nPeak : ℕ) : List Ev × ℕ × ℕ × ReelRes :=
  if o.mic t then reel_loop o waitT (waitT + 1) t nPeak 0 else ([], t, nPeak, .noMic)

/-- Controller state between cycles: global time, the call counts of
each input stream, and the lure timestamp. -/
structure St where
  t : ℕ
  nClock : ℕ
  nCap : ℕ
  nPeak : ℕ
  lure : Option ℚ
deriving DecidableEq

/-- One iteration of `main_loop` (splash.py lines 619-638): check the
cancellation flag (exit if set), apply the lure if due, press the cast
key, search for the bobber; if found, run the audio wait (its outcome,
bite or not, never stops the loop); if not found, sleep the randomized
backoff and retry.  Returns the emitted events and `none` when the
process exits, or the state for the next cycle. -/
def cycle (o : Oracle) (region : Region) (ts : List Gray) (waitT : ℕ) (st : St) :
    List Ev × Option St :=
  if o.esc st.t then ([.check true], none)
  else
    match lureStep o (st.t + 1) st.nClock st.lure with
    | (evsL, tL, nClockL, lure1) =>
      match find_bob_step o region ts (tL + 1) st.nCap with
      | (evsF, _, _, none) => (.check false :: evsL ++ .castKey :: evsF, none)
      | (evsF, tF, nCapF, some found) =>
        if found then
          match reel_in o waitT tF st.nPeak with
          | (evsR, tR, nPeakR, res) =>
            if res = .escExit then (.check false :: evsL ++ .castKey :: (evsF ++ evsR), none)
            else (.check false :: evsL ++ .castKey :: (evsF ++ evsR),
                  some ⟨tR, nClockL, nCapF, nPeakR, lure1⟩)
        else
          (.check false :: evsL ++ .castKey :: (evsF ++ [.backoff]),
           some ⟨tF + 1, nClockL, nCapF, st.nPeak, lure1⟩)

/-- `main_loop` iterated for at most `fuel` cycles: the concatenated
event trace.  Execution stops early when a cancellation is observed. -/
def main_loop (o : Oracle) (region : Region) (ts : List Gray) (waitT : ℕ) :
    ℕ → St → List Ev
  | 0, _ => []
  | fuel + 1, st =>
    match cycle o region ts waitT st with
    | (evs, none) => evs
    | (evs, some st1) => evs ++ main_loop o region ts waitT fuel st1

/-! ### Concrete fixtures (used by the witnesses of the claims) -/

/-- A 2x1 grayscale template with pixels 5 and 7. -/
def wTmpl : Gray := ⟨2, 1, fun x _ => if x = 0 then 5 else 7⟩

/-- A 2x1 raster identical to `wTmpl`. -/
def wShot : Gray := ⟨2, 1, fun x _ => if x = 0 then 5 else 7⟩

/-- A constant 2x1 template. -/
def wT1 : Gray := ⟨2, 1, fun _ _ => 5⟩

/-- A 52x81 raster that is 5 everywhere except pixel (51, 80); its only
non-constant 2x1 window is an exact copy of `wTmpl` at offset (50, 80). -/
def wBig : Gray := ⟨52, 81, fun x y => if x = 51 ∧ y = 80 then 7 else 5⟩

/-- A search region with origin (7, 9). -/
def wRegion : Region := ⟨7, 9, 2, 1⟩

/-- Peak amplitude 0.02, below the audio threshold. -/
def wLow : ℚ := ⟨1, 50, by norm_num, by norm_num⟩

/-- Peak amplitude 0.08, above the audio threshold. -/
def wHigh : ℚ := ⟨2, 25, by norm_num, by norm_num⟩

/-- Initial controller state. -/
def st0 : St := ⟨0, 0, 0, 0, none⟩

/-- Never cancelled, captures succeed, quiet audio. -/
def oQuiet : Oracle :=
  ⟨fun _ => false, fun _ => 0, fun _ => some wShot, fun _ => true, fun _ => some wLow⟩

/-- Never cancelled; the fifth audio window has a bite. -/
def oBite : Oracle :=
  ⟨fun _ => false, fun _ => 0, fun _ => some wShot, fun _ => true,
   fun n => if n = 4 then some wHigh else some wLow⟩

/-- Never cancelled; the third audio acquisition raises. -/
def oErr : Oracle :=
  ⟨fun _ => false, fun _ => 0, fun _ => some wShot, fun _ => true,
   fun n => if n = 2 then none else some wLow⟩

/-- Never cancelled; every screen capture fails. -/
def oCapFail : Oracle :=
  ⟨fun _ => false, fun _ => 0, fun _ => none, fun _ => true, fun _ => some wLow⟩

/-- The cancellation flag becomes set at time 1, right after the
top-of-cycle check, and stays set. -/
def oEsc : Oracle :=
  ⟨fun τ => decide (1 ≤ τ), fun _ => 0, fun _ => none, fun _ => true, fun _ => some wLow⟩

end WetFish

namespace WetFish

/-! ### Real-value semantics of the pair representation

A pair `(n, d)` with `0 ≤ d` represents the real number `n / sqrt d`
(which is `0` when `d = 0`, matching Lean's division by zero).  `pLt`
decides the strict order of the represented values exactly. -/

theorem pnorm_snd_pos (a : ℤ × ℤ) (ha : 0 ≤ a.2) : 0 < (pnorm a).2 := by
  unfold pnorm
  split
  · norm_num
  · exact lt_of_le_of_ne ha (by omega)

theorem pnorm_rdiv (a : ℤ × ℤ) :
    ((pnorm a).1 : ℝ) / Real.sqrt ((pnorm a).2 : ℝ) = (a.1 : ℝ) / Real.sqrt (a.2 : ℝ) := by
  unfold pnorm
  split
  · rename_i h
    rw [h]
    simp
  · rfl

theorem pLtc_iff (a b : ℤ × ℤ) (ha : 0 < a.2) (hb : 0 < b.2) :
    pLtc a b = true ↔ (a.1 : ℝ) / Real.sqrt (a.2 : ℝ) < (b.1 : ℝ) / Real.sqrt (b.2 : ℝ) := by
  have haR : (0 : ℝ) < (a.2 : ℝ) := by exact_mod_cast ha
  have hbR : (0 : ℝ) < (b.2 : ℝ) := by exact_mod_cast hb
  have hA : (0 : ℝ) < Real.sqrt (a.2 : ℝ) := Real.sqrt_pos.mpr haR
  have hB : (0 : ℝ) < Real.sqrt (b.2 : ℝ) := Real.sqrt_pos.mpr hbR
  have hA2 : Real.sqrt (a.2 : ℝ) ^ 2 = (a.2 : ℝ) := Real.sq_sqrt haR.le
  have hB2 : Real.sqrt (b.2 : ℝ) ^ 2 = (b.2 : ℝ) := Real.sq_sqrt hbR.le
  rw [div_lt_div_iff hA hB]
  unfold pLtc
  rcases lt_or_le a.1 0 with h1 | h1
  · have h1R : (a.1 : ℝ) < 0 := by exact_mod_cast h1
    rcases lt_or_le b.1 0 with h2 | h2
    · have h2R : (b.1 : ℝ) < 0 := by exact_mod_cast h2
      simp only [if_pos h1, if_pos h2, decide_eq_true_eq]
      constructor
      · intro h
        have hZ : ((b.1 : ℝ)) ^ 2 * (a.2 : ℝ) < ((a.1 : ℝ)) ^ 2 * (b.2 : ℝ) := by
          exact_mod_cast h
        have hsq : (-(b.1 : ℝ) * Real.sqrt (a.2 : ℝ)) ^ 2
            < (-(a.1 : ℝ) * Real.sqrt (b.2 : ℝ)) ^ 2 := by
          rw [mul_pow, mul_pow, hA2, hB2, neg_sq, neg_sq]
          exact hZ
        have hlt : -(b.1 : ℝ) * Real.sqrt (a.2 : ℝ) < -(a.1 : ℝ) * Real.sqrt (b.2 : ℝ) :=
          lt_of_pow_lt_pow_left₀ 2 (mul_nonneg (by linarith) hB.le) hsq
        rw [neg_mul, neg_mul] at hlt
        linarith
      · intro h
        have hlt : -(b.1 : ℝ) * Real.sqrt (a.2 : ℝ) < -(a.1 : ℝ) * Real.sqrt (b.2 : ℝ) := by
          rw [neg_mul, neg_mul]
          linarith
        have hsq := pow_lt_pow_left₀ hlt (mul_nonneg (by linarith) hA.le)
          (by norm_num : (2:ℕ) ≠ 0)
        rw [mul_pow, mul_pow, hA2, hB2, neg_sq, neg_sq] at hsq
        exact_mod_cast hsq
    · have h2R : (0 : ℝ) ≤ (b.1 : ℝ) := by exact_mod_cast h2
      simp only [if_pos h1, if_neg (not_lt.mpr h2)]
      have : (a.1 : ℝ) * Real.sqrt (b.2 : ℝ) < (b.1 : ℝ) * Real.sqrt (a.2 : ℝ) :=
        lt_of_lt_of_le (mul_neg_of_neg_of_pos h1R hB) (mul_nonneg h2R hA.le)
      simp [this]
  · have h1R : (0 : ℝ) ≤ (a.1 : ℝ) := by exact_mod_cast h1
    rcases lt_or_le b.1 0 with h2 | h2
    · have h2R : (b.1 : ℝ) < 0 := by exact_mod_cast h2
      simp only [if_neg (not_lt.mpr h1), if_pos h2]
      have : (b.1 : ℝ) * Real.sqrt (a.2 : ℝ) < (a.1 : ℝ) * Real.sqrt (b.2 : ℝ) :=
        lt_of_lt_of_le (mul_neg_of_neg_of_pos h2R hA) (mul_nonneg h1R hB.le)
      simp [not_lt.mpr this.le]
    · have h2R : (0 : ℝ) ≤ (b.1 : ℝ) := by exact_mod_cast h2
      simp only [if_neg (not_lt.mpr h1), if_neg (not_lt.mpr h2), decide_eq_true_eq]
      constructor
      · intro h
        have hZ : ((a.1 : ℝ)) ^ 2 * (b.2 : ℝ) < ((b.1 : ℝ)) ^ 2 * (a.2 : ℝ) := by
          exact_mod_cast h
        have hsq : ((a.1 : ℝ) * Real.sqrt (b.2 : ℝ)) ^ 2
            < ((b.1 : ℝ) * Real.sqrt (a.2 : ℝ)) ^ 2 := by
          rw [mul_pow, mul_pow, hA2, hB2]
          exact hZ
        exact lt_of_pow_lt_pow_left₀ 2 (mul_nonneg h2R hA.le) hsq
      · intro h
        have hsq := pow_lt_pow_left₀ h (mul_nonneg h1R hB.le) (by norm_num : (2:ℕ) ≠ 0)
        rw [mul_pow, mul_pow, hA2, hB2] at hsq
        exact_mod_cast hsq

theorem pLt_iff (a b : ℤ × ℤ) (ha : 0 ≤ a.2) (hb : 0 ≤ b.2) :
    pLt a b = true ↔ (a.1 : ℝ) / Real.sqrt (a.2 : ℝ) < (b.1 : ℝ) / Real.sqrt (b.2 : ℝ) := by
  rw [pLt, pLtc_iff _ _ (pnorm_snd_pos a ha) (pnorm_snd_pos b hb), pnorm_rdiv a, pnorm_rdiv b]

theorem pLt_false_iff (a b : ℤ × ℤ) (ha : 0 ≤ a.2) (hb : 0 ≤ b.2) :
    pLt a b = false ↔ (b.1 : ℝ) / Real.sqrt (b.2 : ℝ) ≤ (a.1 : ℝ) / Real.sqrt (a.2 : ℝ) := by
  rw [← Bool.not_eq_true, pLt_iff a b ha hb, not_lt]

theorem pLt_asymm (a b : ℤ × ℤ) (ha : 0 ≤ a.2) (hb : 0 ≤ b.2)
    (h : pLt a b = true) : pLt b a = false := by
  rw [pLt_iff a b ha hb] at h
  rw [pLt_false_iff b a hb ha]
  exact h.le

/-! ### Basic facts about correlation values -/

theorem nccPair_snd_nonneg (r t : Gray) (o : ℕ × ℕ) : 0 ≤ (nccPair r t o).2 :=
  mul_nonneg (Finset.sum_nonneg fun _ _ => sq_nonneg _)
    (Finset.sum_nonneg fun _ _ => sq_nonneg _)

/-- Cauchy-Schwarz: the squared numerator is bounded by the denominator,
so every represented correlation value lies in `[-1, 1]`. -/
theorem nccPair_sq_le (r t : Gray) (o : ℕ × ℕ) :
    (nccPair r t o).1 ^ 2 ≤ (nccPair r t o).2 :=
  Finset.sum_mul_sq_le_sq_mul_sq (grid t) (fun p => tC t p) (fun p => wC r t o p)

theorem rdiv_le_one (n d : ℤ) (h : n ^ 2 ≤ d) :
    (n : ℝ) / Real.sqrt (d : ℝ) ≤ 1 := by
  have hd : 0 ≤ d := le_trans (sq_nonneg n) h
  rcases eq_or_lt_of_le hd with heq | hlt
  · have hn : n = 0 := by nlinarith [sq_nonneg n]
    simp [hn]
  · have hdR : (0 : ℝ) < (d : ℝ) := by exact_mod_cast hlt
    rw [div_le_one (Real.sqrt_pos.mpr hdR)]
    calc (n : ℝ) ≤ |(n : ℝ)| := le_abs_self _
    _ = Real.sqrt ((n : ℝ) ^ 2) := (Real.sqrt_sq_eq_abs _).symm
    _ ≤ Real.sqrt (d : ℝ) := Real.sqrt_le_sqrt (by exact_mod_cast h)

end WetFish

namespace WetFish

/-! ### The `minMaxLoc` scan -/

theorem scan_foldl_mem (r t : Gray) (qs : List (ℕ × ℕ)) (v₀ : ℤ × ℤ) (q₀ : ℕ × ℕ)
    (h₀ : v₀ = nccPair r t q₀) :
    ∃ q1, qs.foldl (scanStep r t) (v₀, q₀) = (nccPair r t q1, q1) ∧ (q1 = q₀ ∨ q1 ∈ qs) := by
  induction qs generalizing v₀ q₀ with
  | nil => exact ⟨q₀, by simp [h₀], Or.inl rfl⟩
  | cons q qs ih =>
    simp only [List.foldl_cons]
    by_cases hc : pLt v₀ (nccPair r t q) = true
    · have hstep : scanStep r t (v₀, q₀) q = (nccPair r t q, q) := by
        simp [scanStep, hc]
      rw [hstep]
      obtain ⟨q1, hf, hq⟩ := ih (nccPair r t q) q rfl
      exact ⟨q1, hf, by rcases hq with h | h <;> simp [h]⟩
    · have hstep : scanStep r t (v₀, q₀) q = (v₀, q₀) := by
        simp [scanStep, hc]
      rw [hstep]
      obtain ⟨q1, hf, hq⟩ := ih v₀ q₀ h₀
      exact ⟨q1, hf, by rcases hq with h | h <;> simp [h]⟩

theorem scan_foldl_best (r t : Gray) (qs : List (ℕ × ℕ)) (v₀ : ℤ × ℤ) (q₀ : ℕ × ℕ)
    (h₀ : v₀ = nccPair r t q₀) :
    pLt (qs.foldl (scanStep r t) (v₀, q₀)).1 v₀ = false ∧
      ∀ q ∈ qs, pLt (qs.foldl (scanStep r t) (v₀, q₀)).1 (nccPair r t q) = false := by
  induction qs generalizing v₀ q₀ with
  | nil =>
    simp only [List.foldl_nil]
    refine ⟨?_, by simp⟩
    rw [pLt_false_iff _ _ (h₀ ▸ nccPair_snd_nonneg r t q₀) (h₀ ▸ nccPair_snd_nonneg r t q₀)]
  | cons q qs ih =>
    simp only [List.foldl_cons]
    by_cases hc : pLt v₀ (nccPair r t q) = true
    · have hstep : scanStep r t (v₀, q₀) q = (nccPair r t q, q) := by
        simp [scanStep, hc]
      rw [hstep]
      obtain ⟨hbest, hall⟩ := ih (nccPair r t q) q rfl
      obtain ⟨q1, hf, _⟩ := scan_foldl_mem r t qs (nccPair r t q) q rfl
      have hv₀ : 0 ≤ v₀.2 := h₀ ▸ nccPair_snd_nonneg r t q₀
      have hq2 : 0 ≤ (nccPair r t q).2 := nccPair_snd_nonneg r t q
      have hR2 : 0 ≤ (qs.foldl (scanStep r t) (nccPair r t q, q)).1.2 := by
        rw [hf]; exact nccPair_snd_nonneg r t q1
      constructor
      · rw [pLt_false_iff _ _ hR2 hv₀]
        have h1 := (pLt_iff _ _ hv₀ hq2).mp hc
        have h2 := (pLt_false_iff _ _ hR2 hq2).mp hbest
        linarith
      · intro q' hq'
        rcases List.mem_cons.mp hq' with h | h
        · rw [h]; exact hbest
        · exact hall q' h
    · have hstep : scanStep r t (v₀, q₀) q = (v₀, q₀) := by
        simp [scanStep, hc]
      rw [hstep]
      obtain ⟨hbest, hall⟩ := ih v₀ q₀ h₀
      obtain ⟨q1, hf, _⟩ := scan_foldl_mem r t qs v₀ q₀ h₀
      have hv₀ : 0 ≤ v₀.2 := h₀ ▸ nccPair_snd_nonneg r t q₀
      have hq2 : 0 ≤ (nccPair r t q).2 := nccPair_snd_nonneg r t q
      have hR2 : 0 ≤ (qs.foldl (scanStep r t) (v₀, q₀)).1.2 := by
        rw [hf]; exact nccPair_snd_nonneg r t q1
      have hc' : pLt v₀ (nccPair r t q) = false := Bool.eq_false_iff.mpr hc
      constructor
      · exact hbest
      · intro q' hq'
        rcases List.mem_cons.mp hq' with h | h
        · rw [h]
          rw [pLt_false_iff _ _ hR2 hq2]
          have h1 := (pLt_false_iff _ _ hv₀ hq2).mp hc'
          have h2 := (pLt_false_iff _ _ hR2 hv₀).mp hbest
          linarith
        · exact hall q' h

theorem scan_foldl_below (r t : Gray) (l : List (ℕ × ℕ)) (w : ℤ × ℤ) (hw : 0 ≤ w.2)
    (hl : ∀ q ∈ l, pLt (nccPair r t q) w = true) (v₀ : ℤ × ℤ) (q₀ : ℕ × ℕ)
    (h₀ : v₀ = nccPair r t q₀) (hv : pLt v₀ w = true) :
    ∃ q1, l.foldl (scanStep r t) (v₀, q₀) = (nccPair r t q1, q1) ∧
      pLt (nccPair r t q1) w = true := by
  induction l generalizing v₀ q₀ with
  | nil => exact ⟨q₀, by simp [h₀], h₀ ▸ hv⟩
  | cons q l ih =>
    simp only [List.foldl_cons]
    by_cases hc : pLt v₀ (nccPair r t q) = true
    · have hstep : scanStep r t (v₀, q₀) q = (nccPair r t q, q) := by
        simp [scanStep, hc]
      rw [hstep]
      exact ih (fun q' h => hl q' (List.mem_cons_of_mem _ h)) (nccPair r t q) q rfl
        (hl q (List.mem_cons_self _ _))
    · have hstep : scanStep r t (v₀, q₀) q = (v₀, q₀) := by
        simp [scanStep, hc]
      rw [hstep]
      exact ih (fun q' h => hl q' (List.mem_cons_of_mem _ h)) v₀ q₀ h₀ hv

theorem scan_foldl_keep (r t : Gray) (l : List (ℕ × ℕ)) (w : ℤ × ℤ) (p0 : ℕ × ℕ)
    (hw : w = nccPair r t p0)
    (hl : ∀ q ∈ l, pLt (nccPair r t q) w = true) :
    l.foldl (scanStep r t) (w, p0) = (w, p0) := by
  induction l with
  | nil => rfl
  | cons q l ih =>
    simp only [List.foldl_cons]
    have hq2 : 0 ≤ (nccPair r t q).2 := nccPair_snd_nonneg r t q
    have hw2 : 0 ≤ w.2 := hw ▸ nccPair_snd_nonneg r t p0
    have hc : pLt w (nccPair r t q) = false :=
      pLt_asymm _ _ hq2 hw2 (hl q (List.mem_cons_self _ _))
    have hstep : scanStep r t (w, p0) q = (w, p0) := by
      simp [scanStep, hc]
    rw [hstep]
    exact ih fun q' h => hl q' (List.mem_cons_of_mem _ h)

theorem mem_offsets (r t : Gray) (q : ℕ × ℕ) :
    q ∈ offsets r t ↔ q.1 < r.width - t.width + 1 ∧ q.2 < r.height - t.height + 1 := by
  unfold offsets
  simp only [List.mem_flatMap, List.mem_map, List.mem_range]
  constructor
  · rintro ⟨y, hy, x, hx, rfl⟩
    exact ⟨hx, hy⟩
  · rintro ⟨h1, h2⟩
    exact ⟨q.2, h2, q.1, h1, rfl⟩

theorem offsets_nodup (r t : Gray) : (offsets r t).Nodup := by
  unfold offsets
  refine List.nodup_flatMap.mpr ⟨?_, ?_⟩
  · intro y _
    refine (List.nodup_range _).map ?_
    intro a b h
    injection h
  · refine (List.pairwise_lt_range _).imp ?_
    intro y1 y2 hlt
    intro p hp1 hp2
    simp only [List.mem_map] at hp1 hp2
    obtain ⟨x1, _, rfl⟩ := hp1
    obtain ⟨x2, _, h⟩ := hp2
    have : y2 = y1 := congrArg Prod.snd h
    omega

theorem templateEval_some (r t : Gray) (v : ℤ × ℤ) (loc : ℕ × ℕ)
    (h : templateEval r t = some (v, loc)) :
    fits r t ∧ v = nccPair r t loc ∧ loc ∈ offsets r t := by
  unfold templateEval at h
  split at h
  · rename_i hfits
    split at h
    · exact absurd h (by simp)
    · rename_i q qs heq
      obtain ⟨q1, hf, hq⟩ := scan_foldl_mem r t qs (nccPair r t q) q rfl
      rw [hf] at h
      obtain ⟨hv, hloc⟩ := Prod.mk.injEq _ _ _ _ ▸ Option.some.injEq _ _ ▸ h
      refine ⟨hfits, ?_, ?_⟩
      · rw [← hv, ← hloc]
      · rw [← hloc, heq]
        rcases hq with h' | h'
        · rw [h']; exact List.mem_cons_self _ _
        · exact List.mem_cons_of_mem _ h'
  · exact absurd h (by simp)

theorem templateEval_snd_nonneg (r t : Gray) (v : ℤ × ℤ) (loc : ℕ × ℕ)
    (h : templateEval r t = some (v, loc)) : 0 ≤ v.2 := by
  obtain ⟨_, hv, _⟩ := templateEval_some r t v loc h
  rw [hv]; exact nccPair_snd_nonneg r t loc

theorem templateEval_sq_le (r t : Gray) (v : ℤ × ℤ) (loc : ℕ × ℕ)
    (h : templateEval r t = some (v, loc)) : v.1 ^ 2 ≤ v.2 := by
  obtain ⟨_, hv, _⟩ := templateEval_some r t v loc h
  rw [hv]; exact nccPair_sq_le r t loc

/-- The maximum over all offsets: no offset's correlation strictly
exceeds the value returned by `templateEval`. -/
theorem templateEval_max (r t : Gray) (v : ℤ × ℤ) (loc : ℕ × ℕ)
    (h : templateEval r t = some (v, loc)) :
    ∀ q ∈ offsets r t, pLt v (nccPair r t q) = false := by
  unfold templateEval at h
  split at h
  · split at h
    · exact absurd h (by simp)
    · rename_i q qs heq
      intro q' hq'
      have hv : v = (qs.foldl (scanStep r t) (nccPair r t q, q)).1 := by
        rw [show qs.foldl (scanStep r t) (nccPair r t q, q)
            = (v, loc) from Option.some.injEq _ _ ▸ h]
      obtain ⟨hbest, hall⟩ := scan_foldl_best r t qs (nccPair r t q) q rfl
      rw [heq] at hq'
      rcases List.mem_cons.mp hq' with h' | h'
      · rw [h', hv]; exact hbest
      · rw [hv]; exact hall q' h'
  · exact absurd h (by simp)

theorem templateEval_eq_cons (r t : Gray) (q : ℕ × ℕ) (qs : List (ℕ × ℕ))
    (hfits : fits r t) (heq : offsets r t = q :: qs) :
    templateEval r t = some (qs.foldl (scanStep r t) (nccPair r t q, q)) := by
  unfold templateEval
  rw [if_pos hfits, heq]

/-- If one offset's correlation strictly dominates all others, the scan
returns exactly that offset and value. -/
theorem templateEval_strictmax (r t : Gray) (p0 : ℕ × ℕ) (w : ℤ × ℤ)
    (hfits : fits r t) (hp0 : p0 ∈ offsets r t) (hw : nccPair r t p0 = w)
    (hmax : ∀ q ∈ offsets r t, q ≠ p0 → pLt (nccPair r t q) w = true) :
    templateEval r t = some (w, p0) := by
  have hnodup := offsets_nodup r t
  cases heq : offsets r t with
  | nil => rw [heq] at hp0; exact absurd hp0 (by simp)
  | cons q qs =>
    rw [templateEval_eq_cons r t q qs hfits heq]
    rw [heq] at hnodup hp0 hmax
    by_cases hqp : q = p0
    · subst hqp
      have hqs : ∀ q' ∈ qs, pLt (nccPair r t q') w = true := by
        intro q' h'
        refine hmax q' (List.mem_cons_of_mem _ h') ?_
        intro hcontra
        rw [hcontra] at h'
        exact (List.nodup_cons.mp hnodup).1 h'
      rw [hw, scan_foldl_keep r t qs w q (hw.symm) hqs]
    · have hp0qs : p0 ∈ qs := by
        rcases List.mem_cons.mp hp0 with h' | h'
        · exact absurd h'.symm hqp
        · exact h'
      obtain ⟨l1, l2, hsplit⟩ := List.append_of_mem hp0qs
      have hnodup' : (q :: qs).Nodup := hnodup
      rw [hsplit] at hnodup'
      have hql1 : p0 ∉ l1 := by
        have := List.nodup_cons.mp hnodup'
        have h2 := this.2
        rw [List.nodup_append] at h2
        intro hmem
        exact h2.2.2 hmem (List.mem_cons_self _ _)
      have hql2 : p0 ∉ l2 := by
        have := List.nodup_cons.mp hnodup'
        have h2 := this.2
        rw [List.nodup_append] at h2
        exact (List.nodup_cons.mp h2.2.1).1
      have hmem_l1 : ∀ q' ∈ l1, pLt (nccPair r t q') w = true := by
        intro q' h'
        refine hmax q' ?_ ?_
        · rw [hsplit]
          exact List.mem_cons_of_mem _ (List.mem_append_left _ h')
        · intro hcontra; rw [hcontra] at h'; exact hql1 h'
      have hmem_l2 : ∀ q' ∈ l2, pLt (nccPair r t q') w = true := by
        intro q' h'
        refine hmax q' ?_ ?_
        · rw [hsplit]
          refine List.mem_cons_of_mem _ (List.mem_append_right _ ?_)
          exact List.mem_cons_of_mem _ h'
        · intro hcontra; rw [hcontra] at h'; exact hql2 h'
      have hqw : pLt (nccPair r t q) w = true :=
        hmax q (List.mem_cons_self _ _) hqp
      rw [hsplit]
      rw [List.foldl_append]
      obtain ⟨q1, hf1, hq1w⟩ := scan_foldl_below r t l1 w
        (hw ▸ nccPair_snd_nonneg r t p0) hmem_l1 (nccPair r t q) q rfl hqw
      rw [hf1]
      simp only [List.foldl_cons]
      have hstep : scanStep r t (nccPair r t q1, q1) p0 = (w, p0) := by
        have hcond : pLt (nccPair r t q1) (nccPair r t p0) = true := by
          rw [hw]; exact hq1w
        show (if pLt (nccPair r t q1) (nccPair r t p0) then (nccPair r t p0, p0)
          else (nccPair r t q1, q1)) = (w, p0)
        rw [if_pos hcond, hw]
      rw [hstep, scan_foldl_keep r t l2 w p0 hw.symm hmem_l2]

end WetFish

namespace WetFish

/-! ### The template loop of `find_bob` -/

theorem bobSearch_append (shot : Gray) (ts : List Gray) (t : Gray) :
    bobSearch shot (ts ++ [t]) = bobStep shot (bobSearch shot ts) t := by
  simp [bobSearch, List.foldl_append]

theorem bobStep_none_eval (shot : Gray) (acc : Option ((ℕ × ℕ) × ℕ × ℕ) × (ℤ × ℤ))
    (t : Gray) (h : templateEval shot t = none) : bobStep shot acc t = acc := by
  simp [bobStep, h]

theorem bobStep_some_true (shot : Gray) (acc : Option ((ℕ × ℕ) × ℕ × ℕ) × (ℤ × ℤ))
    (t : Gray) (v : ℤ × ℤ) (loc : ℕ × ℕ) (h : templateEval shot t = some (v, loc))
    (hc : (pLt BOBBER_MATCH_THRESHOLD v && pLt acc.2 v) = true) :
    bobStep shot acc t = (some (loc, t.height, t.width), v) := by
  simp [bobStep, h, hc]

theorem bobStep_some_false (shot : Gray) (acc : Option ((ℕ × ℕ) × ℕ × ℕ) × (ℤ × ℤ))
    (t : Gray) (v : ℤ × ℤ) (loc : ℕ × ℕ) (h : templateEval shot t = some (v, loc))
    (hc : (pLt BOBBER_MATCH_THRESHOLD v && pLt acc.2 v) = false) :
    bobStep shot acc t = acc := by
  simp [bobStep, h, hc]

theorem pLt_irrefl (a : ℤ × ℤ) (ha : 0 ≤ a.2) : pLt a a = false := by
  rw [pLt_false_iff a a ha ha]

/-- The threshold pair represents exactly `0.6`. -/
theorem threshold_iff (v : ℤ × ℤ) (hv : 0 ≤ v.2) :
    pLt BOBBER_MATCH_THRESHOLD v = true ↔
      (3 : ℝ) / 5 < (v.1 : ℝ) / Real.sqrt (v.2 : ℝ) := by
  rw [pLt_iff _ _ (by norm_num [BOBBER_MATCH_THRESHOLD]) hv]
  simp only [BOBBER_MATCH_THRESHOLD]
  rw [show (((3, 25) : ℤ × ℤ).1 : ℝ) = 3 by norm_num]
  rw [show (((3, 25) : ℤ × ℤ).2 : ℝ) = (5 : ℝ) ^ 2 by norm_num]
  rw [Real.sqrt_sq (by norm_num : (0 : ℝ) ≤ 5)]

theorem threshold_false_iff (v : ℤ × ℤ) (hv : 0 ≤ v.2) :
    pLt BOBBER_MATCH_THRESHOLD v = false ↔
      (v.1 : ℝ) / Real.sqrt (v.2 : ℝ) ≤ (3 : ℝ) / 5 := by
  rw [← Bool.not_eq_true, threshold_iff v hv, not_lt]

theorem pLt_init_iff (v : ℤ × ℤ) (hv : 0 ≤ v.2) :
    pLt ((0 : ℤ), (1 : ℤ)) v = true ↔ 0 < (v.1 : ℝ) / Real.sqrt (v.2 : ℝ) := by
  rw [pLt_iff _ _ (by norm_num) hv]
  rw [show ((((0 : ℤ), (1 : ℤ)) : ℤ × ℤ).1 : ℝ) = 0 by norm_num]
  rw [show ((((0 : ℤ), (1 : ℤ)) : ℤ × ℤ).2 : ℝ) = 1 by norm_num]
  rw [Real.sqrt_one, zero_div]

theorem pLt_init_of_threshold (v : ℤ × ℤ) (hv : 0 ≤ v.2)
    (h : pLt BOBBER_MATCH_THRESHOLD v = true) : pLt ((0 : ℤ), (1 : ℤ)) v = true := by
  rw [threshold_iff v hv] at h
  rw [pLt_init_iff v hv]
  linarith

theorem bobSearch_snd_nonneg (shot : Gray) (ts : List Gray) :
    0 ≤ (bobSearch shot ts).2.2 := by
  induction ts using List.reverseRecOn with
  | nil => norm_num [bobSearch]
  | append_singleton ts t ih =>
    rw [bobSearch_append]
    cases heval : templateEval shot t with
    | none => rw [bobStep_none_eval _ _ _ heval]; exact ih
    | some vl =>
      obtain ⟨v, loc⟩ := vl
      by_cases hc : (pLt BOBBER_MATCH_THRESHOLD v && pLt (bobSearch shot ts).2 v) = true
      · rw [bobStep_some_true _ _ _ _ _ heval hc]
        exact templateEval_snd_nonneg _ _ _ _ heval
      · rw [bobStep_some_false _ _ _ _ _ heval (Bool.eq_false_iff.mpr hc)]
        exact ih

/-- If the search ends with `best_match = None` then `best_val` is still
the initial `0`; and `best_match = None` holds exactly when no template
exceeds the threshold. -/
theorem bobSearch_none_char (shot : Gray) (ts : List Gray) :
    ((bobSearch shot ts).1 = none → bobSearch shot ts = (none, ((0 : ℤ), (1 : ℤ)))) ∧
      ((bobSearch shot ts).1 = none ↔
        ∀ t ∈ ts, ∀ v loc, templateEval shot t = some (v, loc) →
          pLt BOBBER_MATCH_THRESHOLD v = false) := by
  induction ts using List.reverseRecOn with
  | nil => exact ⟨fun _ => rfl, by simp [bobSearch]⟩
  | append_singleton ts t ih =>
    obtain ⟨ih1, ih2⟩ := ih
    rw [bobSearch_append]
    cases heval : templateEval shot t with
    | none =>
      rw [bobStep_none_eval _ _ _ heval]
      refine ⟨ih1, ?_⟩
      rw [ih2]
      constructor
      · intro h t' ht' v loc he
        rcases List.mem_append.mp ht' with h' | h'
        · exact h t' h' v loc he
        · rw [List.mem_singleton.mp h'] at he
          rw [heval] at he
          cases he
      · intro h t' ht' v loc he
        exact h t' (List.mem_append_left _ ht') v loc he
    | some vl =>
      obtain ⟨v, loc⟩ := vl
      have hv2 : 0 ≤ v.2 := templateEval_snd_nonneg _ _ _ _ heval
      by_cases hθ : pLt BOBBER_MATCH_THRESHOLD v = true
      · by_cases hc : (pLt BOBBER_MATCH_THRESHOLD v && pLt (bobSearch shot ts).2 v) = true
        · rw [bobStep_some_true _ _ _ _ _ heval hc]
          refine ⟨fun h => absurd h (by simp), ?_⟩
          constructor
          · intro h; exact absurd h (by simp)
          · intro h
            have := h t (List.mem_append_right _ (List.mem_singleton_self t)) v loc heval
            rw [hθ] at this
            cases this
        · rw [bobStep_some_false _ _ _ _ _ heval (Bool.eq_false_iff.mpr hc)]
          have hBne : ¬ (bobSearch shot ts).1 = none := by
            intro hB
            have hBeq := ih1 hB
            apply hc
            rw [hθ, Bool.true_and, hBeq]
            exact pLt_init_of_threshold v hv2 hθ
          refine ⟨fun h => absurd h hBne, ?_⟩
          constructor
          · intro h; exact absurd h hBne
          · intro h
            have := h t (List.mem_append_right _ (List.mem_singleton_self t)) v loc heval
            rw [hθ] at this
            cases this
      · have hθf : pLt BOBBER_MATCH_THRESHOLD v = false := Bool.eq_false_iff.mpr hθ
        have hc : (pLt BOBBER_MATCH_THRESHOLD v && pLt (bobSearch shot ts).2 v) = false := by
          rw [hθf, Bool.false_and]
        rw [bobStep_some_false _ _ _ _ _ heval hc]
        refine ⟨ih1, ?_⟩
        rw [ih2]
        constructor
        · intro h t' ht' v' loc' he
          rcases List.mem_append.mp ht' with h' | h'
          · exact h t' h' v' loc' he
          · rw [List.mem_singleton.mp h'] at he
            rw [heval] at he
            obtain ⟨h1, _⟩ := Prod.mk.inj (Option.some.inj he)
            rw [← h1]
            exact hθf
        · intro h t' ht' v' loc' he
          exact h t' (List.mem_append_left _ ht') v' loc' he

end WetFish

namespace WetFish

/-- Characterization of a successful template search: the winner is the
first template (in store order) attaining the maximum among those whose
correlation strictly exceeds the threshold: templates before the winner
that exceed the threshold are strictly below the winner's value, and no
template anywhere strictly exceeds it. -/
theorem bobSearch_found_char (shot : Gray) (ts : List Gray) (loc : ℕ × ℕ) (hw : ℕ × ℕ)
    (v : ℤ × ℤ) (h : bobSearch shot ts = (some (loc, hw), v)) :
    ∃ ts1 twin ts2, ts = ts1 ++ twin :: ts2 ∧
      templateEval shot twin = some (v, loc) ∧ hw = (twin.height, twin.width) ∧
      pLt BOBBER_MATCH_THRESHOLD v = true ∧
      (∀ t' ∈ ts1, ∀ v' loc', templateEval shot t' = some (v', loc') →
        pLt BOBBER_MATCH_THRESHOLD v' = true → pLt v' v = true) ∧
      (∀ t' ∈ ts, ∀ v' loc', templateEval shot t' = some (v', loc') →
        pLt v v' = false) := by
  induction ts using List.reverseRecOn generalizing loc hw v with
  | nil => simp [bobSearch] at h
  | append_singleton ts t ih =>
    rw [bobSearch_append] at h
    cases heval : templateEval shot t with
    | none =>
      rw [bobStep_none_eval _ _ _ heval] at h
      obtain ⟨ts1, twin, ts2, hsplit, he, hhw, hθ, hpre, hall⟩ := ih loc hw v h
      refine ⟨ts1, twin, ts2 ++ [t], by rw [hsplit]; simp, he, hhw, hθ, hpre, ?_⟩
      intro t' ht' v' loc' he'
      rcases List.mem_append.mp ht' with h' | h'
      · exact hall t' h' v' loc' he'
      · rw [List.mem_singleton.mp h'] at he'
        rw [heval] at he'
        cases he'
    | some vl =>
      obtain ⟨vt, loct⟩ := vl
      have hvt2 : 0 ≤ vt.2 := templateEval_snd_nonneg _ _ _ _ heval
      by_cases hc : (pLt BOBBER_MATCH_THRESHOLD vt && pLt (bobSearch shot ts).2 vt) = true
      · rw [bobStep_some_true _ _ _ _ _ heval hc] at h
        obtain ⟨h1, h2⟩ := Prod.mk.inj h
        obtain ⟨hloc, hhw⟩ := Prod.mk.inj (Option.some.inj h1)
        subst h2
        have hc' := hc
        rw [Bool.and_eq_true] at hc'
        obtain ⟨hθt, hbv⟩ := hc'
        have hB2 : 0 ≤ (bobSearch shot ts).2.2 := bobSearch_snd_nonneg shot ts
        have hBlt := (pLt_iff _ _ hB2 hvt2).mp hbv
        refine ⟨ts, t, [], by simp, by rw [← hloc]; exact heval, hhw.symm, hθt, ?_, ?_⟩
        · intro t' ht' v' loc' he' hθ'
          have hv'2 : 0 ≤ v'.2 := templateEval_snd_nonneg _ _ _ _ he'
          rw [pLt_iff _ _ hv'2 hvt2]
          cases hB : (bobSearch shot ts).1 with
          | none =>
            have := ((bobSearch_none_char shot ts).2.mp hB) t' ht' v' loc' he'
            rw [hθ'] at this
            cases this
          | some pr =>
            obtain ⟨loc0, hw0⟩ := pr
            have hBfull : bobSearch shot ts = (some (loc0, hw0), (bobSearch shot ts).2) := by
              rw [← hB]
            obtain ⟨_, _, _, _, _, _, _, _, hall0⟩ :=
              ih loc0 hw0 (bobSearch shot ts).2 hBfull
            have h0 := hall0 t' ht' v' loc' he'
            have := (pLt_false_iff _ _ hB2 hv'2).mp h0
            linarith
        · intro t' ht' v' loc' he'
          have hv'2 : 0 ≤ v'.2 := templateEval_snd_nonneg _ _ _ _ he'
          rcases List.mem_append.mp ht' with h' | h'
          · rw [pLt_false_iff _ _ hvt2 hv'2]
            cases hB : (bobSearch shot ts).1 with
            | none =>
              have hnq := ((bobSearch_none_char shot ts).2.mp hB) t' h' v' loc' he'
              have hle := (threshold_false_iff v' hv'2).mp hnq
              have hgt := (threshold_iff vt hvt2).mp hθt
              linarith
            | some pr =>
              obtain ⟨loc0, hw0⟩ := pr
              have hBfull : bobSearch shot ts = (some (loc0, hw0), (bobSearch shot ts).2) := by
                rw [← hB]
              obtain ⟨_, _, _, _, _, _, _, _, hall0⟩ :=
                ih loc0 hw0 (bobSearch shot ts).2 hBfull
              have h0 := hall0 t' h' v' loc' he'
              have := (pLt_false_iff _ _ hB2 hv'2).mp h0
              linarith
          · rw [List.mem_singleton.mp h'] at he'
            rw [heval] at he'
            obtain ⟨hv', _⟩ := Prod.mk.inj (Option.some.inj he')
            rw [← hv']
            exact pLt_irrefl vt hvt2
      · rw [bobStep_some_false _ _ _ _ _ heval (Bool.eq_false_iff.mpr hc)] at h
        obtain ⟨ts1, twin, ts2, hsplit, he, hhw, hθ, hpre, hall⟩ := ih loc hw v h
        have hv2 : 0 ≤ v.2 := templateEval_snd_nonneg _ _ _ _ he
        refine ⟨ts1, twin, ts2 ++ [t], by rw [hsplit]; simp, he, hhw, hθ, hpre, ?_⟩
        intro t' ht' v' loc' he'
        rcases List.mem_append.mp ht' with h' | h'
        · exact hall t' h' v' loc' he'
        · rw [List.mem_singleton.mp h'] at he'
          rw [heval] at he'
          obtain ⟨hv', _⟩ := Prod.mk.inj (Option.some.inj he')
          rw [← hv']
          by_cases hf : pLt BOBBER_MATCH_THRESHOLD vt = true
          · have hbvf : pLt (bobSearch shot ts).2 vt = false := by
              by_contra hbv
              rw [Bool.not_eq_false] at hbv
              exact hc (by rw [hf, hbv, Bool.and_self])
            rw [h] at hbvf
            exact hbvf
          · have hff : pLt BOBBER_MATCH_THRESHOLD vt = false := Bool.eq_false_iff.mpr hf
            rw [pLt_false_iff _ _ hv2 hvt2]
            have hle := (threshold_false_iff vt hvt2).mp hff
            have hgt := (threshold_iff v hv2).mp hθ
            linarith

end WetFish

namespace WetFish

/-! ### Special correlation values -/

theorem grid_card (t : Gray) : (grid t).card = t.width * t.height := by
  simp [grid]

theorem dT_nonneg (t : Gray) : 0 ≤ dT t :=
  Finset.sum_nonneg fun _ _ => sq_nonneg _

/-- A constant window has correlation pair `(0, 0)` (the script's
TM_CCOEFF_NORMED is `0/0` there, i.e. `0`). -/
theorem nccPair_const_window (r t : Gray) (o : ℕ × ℕ)
    (h : ∀ p ∈ grid t, r.px (o.1 + p.1) (o.2 + p.2) = r.px o.1 o.2) :
    nccPair r t o = (0, 0) := by
  have hw : wSum r t o = area t * r.px o.1 o.2 := by
    unfold wSum
    calc ∑ p ∈ grid t, r.px (o.1 + p.1) (o.2 + p.2)
        = ∑ _p ∈ grid t, r.px o.1 o.2 := Finset.sum_congr rfl h
    _ = (grid t).card • r.px o.1 o.2 := Finset.sum_const _
    _ = area t * r.px o.1 o.2 := by
        rw [grid_card, nsmul_eq_mul, area]
  have hwc : ∀ p ∈ grid t, wC r t o p = 0 := by
    intro p hp
    unfold wC
    rw [h p hp, hw]
    ring
  have hN : nccN r t o = 0 := by
    unfold nccN
    apply Finset.sum_eq_zero
    intro p hp
    rw [hwc p hp, mul_zero]
  have hW : dW r t o = 0 := by
    unfold dW
    apply Finset.sum_eq_zero
    intro p hp
    rw [hwc p hp]
    ring
  unfold nccPair
  rw [hN, hW, mul_zero]

/-- A constant template has correlation pair `(0, 0)` at every offset. -/
theorem nccPair_const_template (r t : Gray) (o : ℕ × ℕ)
    (h : ∀ p ∈ grid t, t.px p.1 p.2 = t.px 0 0) :
    nccPair r t o = (0, 0) := by
  have ht : tSum t = area t * t.px 0 0 := by
    unfold tSum
    calc ∑ p ∈ grid t, t.px p.1 p.2
        = ∑ _p ∈ grid t, t.px 0 0 := Finset.sum_congr rfl h
    _ = (grid t).card • t.px 0 0 := Finset.sum_const _
    _ = area t * t.px 0 0 := by
        rw [grid_card, nsmul_eq_mul, area]
  have htc : ∀ p ∈ grid t, tC t p = 0 := by
    intro p hp
    unfold tC
    rw [h p hp, ht]
    ring
  have hN : nccN r t o = 0 := by
    unfold nccN
    apply Finset.sum_eq_zero
    intro p hp
    rw [htc p hp, zero_mul]
  have hT : dT t = 0 := by
    unfold dT
    apply Finset.sum_eq_zero
    intro p hp
    rw [htc p hp]
    ring
  unfold nccPair
  rw [hN, hT, zero_mul]

/-- A window that is an exact copy of the template has correlation pair
`(dT t, dT t * dT t)`, whose represented value is `1` when the template
is not constant. -/
theorem nccPair_copy (r t : Gray) (o : ℕ × ℕ)
    (h : ∀ p ∈ grid t, r.px (o.1 + p.1) (o.2 + p.2) = t.px p.1 p.2) :
    nccPair r t o = (dT t, dT t * dT t) := by
  have hw : wSum r t o = tSum t := by
    unfold wSum tSum
    exact Finset.sum_congr rfl h
  have hwc : ∀ p ∈ grid t, wC r t o p = tC t p := by
    intro p hp
    unfold wC tC
    rw [h p hp, hw]
  have hN : nccN r t o = dT t := by
    unfold nccN dT
    exact Finset.sum_congr rfl fun p hp => by rw [hwc p hp]; ring
  have hW : dW r t o = dT t := by
    unfold dW dT
    exact Finset.sum_congr rfl fun p hp => by rw [hwc p hp]
  unfold nccPair
  rw [hN, hW]

/-- The represented value of a perfect-match pair `(e, e*e)` is `1`. -/
theorem perfect_rdiv (e : ℤ) (he : 0 < e) :
    ((e : ℝ)) / Real.sqrt ((e * e : ℤ) : ℝ) = 1 := by
  have heR : (0 : ℝ) < (e : ℝ) := by exact_mod_cast he
  rw [show ((e * e : ℤ) : ℝ) = (e : ℝ) * (e : ℝ) by push_cast; ring]
  rw [Real.sqrt_mul_self heR.le]
  exact div_self (ne_of_gt heR)

theorem pLt_zero_pair (d e : ℤ) (hd : 0 ≤ d) (he : 0 < e) :
    pLt ((0 : ℤ), d) (e, e * e) = true := by
  have h2 : 0 ≤ e * e := mul_nonneg he.le he.le
  rw [pLt_iff _ _ hd h2]
  rw [show ((((0 : ℤ), d) : ℤ × ℤ).1 : ℝ) = 0 by norm_num, zero_div]
  rw [show (((e, e * e) : ℤ × ℤ).1 : ℝ) = (e : ℝ) by norm_num]
  rw [show (((e, e * e) : ℤ × ℤ).2 : ℝ) = ((e * e : ℤ) : ℝ) by norm_num]
  rw [perfect_rdiv e he]
  norm_num

theorem pLt_theta_perfect (e : ℤ) (he : 0 < e) :
    pLt BOBBER_MATCH_THRESHOLD (e, e * e) = true := by
  have h2 : (0 : ℤ) ≤ (((e, e * e) : ℤ × ℤ)).2 := by
    show (0 : ℤ) ≤ e * e
    exact mul_nonneg he.le he.le
  rw [threshold_iff _ h2]
  rw [show (((e, e * e) : ℤ × ℤ).1 : ℝ) = (e : ℝ) by norm_num]
  rw [show (((e, e * e) : ℤ × ℤ).2 : ℝ) = ((e * e : ℤ) : ℝ) by norm_num]
  rw [perfect_rdiv e he]
  norm_num

theorem pLt_init_perfect (e : ℤ) (he : 0 < e) :
    pLt ((0 : ℤ), (1 : ℤ)) (e, e * e) = true := by
  have h2 : (0 : ℤ) ≤ (((e, e * e) : ℤ × ℤ)).2 := by
    show (0 : ℤ) ≤ e * e
    exact mul_nonneg he.le he.le
  rw [pLt_init_iff _ h2]
  rw [show (((e, e * e) : ℤ × ℤ).1 : ℝ) = (e : ℝ) by norm_num]
  rw [show (((e, e * e) : ℤ × ℤ).2 : ℝ) = ((e * e : ℤ) : ℝ) by norm_num]
  rw [perfect_rdiv e he]
  norm_num

/-- A successful `find_bob` decomposes into a successful search and the
center-coordinate computation. -/
theorem find_bob_found (region : Region) (shot : Gray) (ts : List Gray)
    (c : ℕ × ℕ) (v : ℤ × ℤ) (hw : ℕ × ℕ)
    (h : find_bob region shot ts = .Found c v hw) :
    ∃ loc hh ww, hw = (hh, ww) ∧ bobSearch shot ts = (some (loc, hh, ww), v) ∧
      c = (region.left + loc.1 + ww / 2, region.top + loc.2 + hh / 2) := by
  unfold find_bob at h
  split at h
  · rename_i loc0 hh0 ww0 v0 heq
    obtain ⟨hc, hv, hhw⟩ := MatchResult.Found.inj h
    exact ⟨loc0, hh0, ww0, hhw.symm, by rw [heq, hv], hc.symm⟩
  · cases h

end WetFish

namespace WetFish

theorem find_bob_notfound_iff (region : Region) (shot : Gray) (ts : List Gray) :
    find_bob region shot ts = .NotFound ↔ (bobSearch shot ts).1 = none := by
  cases hB : bobSearch shot ts with
  | mk o v =>
    cases o with
    | none => simp [find_bob, hB]
    | some pr =>
      obtain ⟨loc, hh, ww⟩ := pr
      simp [find_bob, hB]

/-- C1: for every captured grayscale raster and template sequence, the
search returns the candidate of the template whose maximum correlation
is greatest among those strictly exceeding the threshold (ties resolved
to the earlier template, since strict greater-than is required to
replace the current best), and `NotFound` exactly when no template's
maximum exceeds the threshold. -/
theorem claim_C1 (region : Region) (shot : Gray) (ts : List Gray) :
    (find_bob region shot ts = .NotFound ↔
      ∀ t ∈ ts, ∀ v loc, templateEval shot t = some (v, loc) →
        pLt BOBBER_MATCH_THRESHOLD v = false) ∧
    (∀ c v hw, find_bob region shot ts = .Found c v hw →
      ∃ ts1 twin ts2 loc, ts = ts1 ++ twin :: ts2 ∧
        templateEval shot twin = some (v, loc) ∧ hw = (twin.height, twin.width) ∧
        pLt BOBBER_MATCH_THRESHOLD v = true ∧
        (∀ t' ∈ ts1, ∀ v' loc', templateEval shot t' = some (v', loc') →
          pLt BOBBER_MATCH_THRESHOLD v' = true → pLt v' v = true) ∧
        (∀ t' ∈ ts, ∀ v' loc', templateEval shot t' = some (v', loc') →
          pLt v v' = false)) := by
  constructor
  · rw [find_bob_notfound_iff]
    exact (bobSearch_none_char shot ts).2
  · intro c v hw h
    obtain ⟨loc, hh, ww, hhw, hB, _⟩ := find_bob_found region shot ts c v hw h
    obtain ⟨ts1, twin, ts2, hsplit, he, hw2, hθ, hpre, hall⟩ :=
      bobSearch_found_char shot ts loc (hh, ww) v hB
    exact ⟨ts1, twin, ts2, loc, hsplit, he, by rw [hhw, hw2], hθ, hpre, hall⟩

/-- C5: the visual search is a pure function of the captured raster and
the templates; the sampled jitter and easing duration influence only the
actuator's mouse-move action, never the returned `MatchResult`. -/
theorem claim_C5 (region : Region) (shot : Gray) (ts : List Gray)
    (jx jy dur jx' jy' dur' : ℚ) :
    (find_bob_acts region shot ts jx jy dur).1 = (find_bob_acts region shot ts jx' jy' dur').1 ∧
    (find_bob_acts region shot ts jx jy dur).1 = find_bob region shot ts := by
  unfold find_bob_acts
  cases find_bob region shot ts <;> simp

/-- C6: every confidence reported with a `Found` result lies in `[0,1]`
(indeed strictly above the threshold `0.6 = 3/5`), and the threshold
comparison is strict greater-than. -/
theorem claim_C6 (region : Region) (shot : Gray) (ts : List Gray)
    (c : ℕ × ℕ) (v : ℤ × ℤ) (hw : ℕ × ℕ)
    (h : find_bob region shot ts = .Found c v hw) :
    (3 : ℝ) / 5 < (v.1 : ℝ) / Real.sqrt (v.2 : ℝ) ∧
    0 ≤ (v.1 : ℝ) / Real.sqrt (v.2 : ℝ) ∧
    (v.1 : ℝ) / Real.sqrt (v.2 : ℝ) ≤ 1 := by
  obtain ⟨loc, hh, ww, hhw, hB, hc⟩ := find_bob_found region shot ts c v hw h
  obtain ⟨ts1, twin, ts2, hsplit, he, _, hθ, _, _⟩ :=
    bobSearch_found_char shot ts loc (hh, ww) v hB
  have hv2 : 0 ≤ v.2 := templateEval_snd_nonneg _ _ _ _ he
  have hgt := (threshold_iff v hv2).mp hθ
  refine ⟨hgt, by linarith, ?_⟩
  exact rdiv_le_one v.1 v.2 (templateEval_sq_le _ _ _ _ he)

/-- C7: the reported coordinates of every `Found` result are the search
region origin plus the match offset plus half the winning template's
size (the matched block's center); and in the exact-copy scenario — the
raster contains an exact copy of `t2` at offset `(50, 80)`, every other
window is constant, and `t1` scores strictly below a perfect match —
the search selects `t2` at `(50, 80)` with confidence exactly `1`. -/
theorem claim_C7 :
    (∀ (region : Region) (shot : Gray) (ts : List Gray) (c : ℕ × ℕ) (v : ℤ × ℤ)
      (hw : ℕ × ℕ), find_bob region shot ts = .Found c v hw →
      ∃ loc hh ww, hw = (hh, ww) ∧ bobSearch shot ts = (some (loc, hh, ww), v) ∧
        c = (region.left + loc.1 + ww / 2, region.top + loc.2 + hh / 2)) ∧
    (∀ (region : Region) (shot t1 t2 : Gray),
      fits shot t2 →
      (50, 80) ∈ offsets shot t2 →
      (∀ p ∈ grid t2, shot.px (50 + p.1) (80 + p.2) = t2.px p.1 p.2) →
      0 < dT t2 →
      (∀ q ∈ offsets shot t2, q ≠ (50, 80) →
        ∀ p ∈ grid t2, shot.px (q.1 + p.1) (q.2 + p.2) = shot.px q.1 q.2) →
      (templateEval shot t1 = none ∨
        ∃ v1 loc1, templateEval shot t1 = some (v1, loc1) ∧
          pLt v1 (dT t2, dT t2 * dT t2) = true) →
      find_bob region shot [t1, t2] =
        .Found (region.left + 50 + t2.width / 2, region.top + 80 + t2.height / 2)
          (dT t2, dT t2 * dT t2) (t2.height, t2.width) ∧
      ((dT t2 : ℝ)) / Real.sqrt ((dT t2 * dT t2 : ℤ) : ℝ) = 1) := by
  constructor
  · exact fun region shot ts c v hw h => find_bob_found region shot ts c v hw h
  · intro region shot t1 t2 hfits hoff hcopy hdT hother ht1
    have hw_at : nccPair shot t2 (50, 80) = (dT t2, dT t2 * dT t2) :=
      nccPair_copy shot t2 (50, 80) hcopy
    have hmax : ∀ q ∈ offsets shot t2, q ≠ (50, 80) →
        pLt (nccPair shot t2 q) (dT t2, dT t2 * dT t2) = true := by
      intro q hq hne
      rw [nccPair_const_window shot t2 q (hother q hq hne)]
      exact pLt_zero_pair 0 (dT t2) le_rfl hdT
    have hevalT2 : templateEval shot t2 = some ((dT t2, dT t2 * dT t2), (50, 80)) :=
      templateEval_strictmax shot t2 (50, 80) (dT t2, dT t2 * dT t2) hfits hoff hw_at hmax
    have hstep2 : ∀ acc : Option ((ℕ × ℕ) × ℕ × ℕ) × (ℤ × ℤ),
        pLt acc.2 (dT t2, dT t2 * dT t2) = true →
        bobStep shot acc t2 = (some ((50, 80), t2.height, t2.width), (dT t2, dT t2 * dT t2)) := by
      intro acc hacc
      refine bobStep_some_true shot acc t2 _ _ hevalT2 ?_
      rw [pLt_theta_perfect (dT t2) hdT, hacc]
      rfl
    have hsearch : bobSearch shot [t1, t2]
        = (some ((50, 80), t2.height, t2.width), (dT t2, dT t2 * dT t2)) := by
      unfold bobSearch
      simp only [List.foldl_cons, List.foldl_nil]
      rcases ht1 with hnone | hsome
      · rw [bobStep_none_eval shot _ t1 hnone]
        exact hstep2 (none, ((0 : ℤ), (1 : ℤ))) (pLt_init_perfect (dT t2) hdT)
      · obtain ⟨v1, loc1, he1, hlt1⟩ := hsome
        by_cases hc : (pLt BOBBER_MATCH_THRESHOLD v1 && pLt ((0 : ℤ), (1 : ℤ)) v1) = true
        · rw [bobStep_some_true shot _ t1 v1 loc1 he1 hc]
          exact hstep2 _ hlt1
        · rw [bobStep_some_false shot _ t1 v1 loc1 he1 (Bool.eq_false_iff.mpr hc)]
          exact hstep2 _ (pLt_init_perfect (dT t2) hdT)
    refine ⟨?_, perfect_rdiv (dT t2) hdT⟩
    unfold find_bob
    rw [hsearch]

end WetFish

namespace WetFish

/-! ### The audio wait loop -/

theorem reel_loop_bite (o : Oracle) (waitT : ℕ) (hEsc : ∀ τ, o.esc τ = false) :
    ∀ fuel k t nPeak counter, 1 ≤ k → k ≤ fuel → counter + k ≤ waitT + 1 →
      (∀ j, j + 1 < k → ∃ p, o.peak (nPeak + j) = some p ∧ ¬ (AUDIO_THRESHOLD < p)) →
      (∃ p, o.peak (nPeak + (k - 1)) = some p ∧ AUDIO_THRESHOLD < p) →
      (reel_loop o waitT fuel t nPeak counter).2.2.2 = .reeled ∧
        (reel_loop o waitT fuel t nPeak counter).1.count .record = k := by
  intro fuel
  induction fuel with
  | zero => intro k t nPeak counter h1 h2 _ _ _; omega
  | succ fuel ih =>
    intro k t nPeak counter h1 h2 h3 hlow hbite
    by_cases hk : k = 1
    · subst hk
      obtain ⟨p, hp, hgt⟩ := hbite
      rw [show nPeak + (1 - 1) = nPeak by omega] at hp
      have hres : reel_loop o waitT (fuel + 1) t nPeak counter
          = ([.check false, .record, .reelClick], t + 3, nPeak + 1, .reeled) := by
        simp only [reel_loop, hEsc t, Bool.false_eq_true, if_false, hp]
        rw [if_pos hgt]
      rw [hres]
      exact ⟨rfl, rfl⟩
    · obtain ⟨p, hp, hle⟩ := hlow 0 (by omega)
      rw [Nat.add_zero] at hp
      have hnt : ¬ (waitT < counter + 1) := by omega
      have hres : reel_loop o waitT (fuel + 1) t nPeak counter
          = (.check false :: .record ::
              (reel_loop o waitT fuel (t + 2) (nPeak + 1) (counter + 1)).1,
             (reel_loop o waitT fuel (t + 2) (nPeak + 1) (counter + 1)).2) := by
        simp only [reel_loop, hEsc t, Bool.false_eq_true, if_false, hp]
        rw [if_neg hle, if_neg hnt]
      rw [hres]
      have ihres := ih (k - 1) (t + 2) (nPeak + 1) (counter + 1) (by omega) (by omega) (by omega)
        (fun j hj => by
          have hh := hlow (j + 1) (by omega)
          rw [show nPeak + (j + 1) = nPeak + 1 + j by omega] at hh
          exact hh)
        (by
          have hh := hbite
          rw [show nPeak + (k - 1) = nPeak + 1 + (k - 1 - 1) by omega] at hh
          exact hh)
      refine ⟨ihres.1, ?_⟩
      simp only [List.count_cons, ihres.2]
      have : (Ev.record == Ev.record) = true := by decide
      have h2' : (Ev.check false == Ev.record) = false := by decide
      simp [this, h2']
      omega

theorem reel_loop_timeout (o : Oracle) (waitT : ℕ) (hEsc : ∀ τ, o.esc τ = false) :
    ∀ fuel t nPeak counter, counter + fuel = waitT + 1 →
      (∀ j, j < fuel → ∃ p, o.peak (nPeak + j) = some p ∧ ¬ (AUDIO_THRESHOLD < p)) →
      (reel_loop o waitT fuel t nPeak counter).2.2.2 = .timeout ∧
        (reel_loop o waitT fuel t nPeak counter).1.count .record = fuel := by
  intro fuel
  induction fuel with
  | zero => intro t nPeak counter _ _; exact ⟨rfl, rfl⟩
  | succ fuel ih =>
    intro t nPeak counter h1 hlow
    obtain ⟨p, hp, hle⟩ := hlow 0 (by omega)
    rw [Nat.add_zero] at hp
    by_cases hf : fuel = 0
    · subst hf
      have hto : waitT < counter + 1 := by omega
      have hres : reel_loop o waitT 1 t nPeak counter
          = ([.check false, .record], t + 2, nPeak + 1, .timeout) := by
        simp only [reel_loop, hEsc t, Bool.false_eq_true, if_false, hp]
        rw [if_neg hle, if_pos hto]
      rw [hres]
      exact ⟨rfl, rfl⟩
    · have hnt : ¬ (waitT < counter + 1) := by omega
      have hres : reel_loop o waitT (fuel + 1) t nPeak counter
          = (.check false :: .record ::
              (reel_loop o waitT fuel (t + 2) (nPeak + 1) (counter + 1)).1,
             (reel_loop o waitT fuel (t + 2) (nPeak + 1) (counter + 1)).2) := by
        simp only [reel_loop, hEsc t, Bool.false_eq_true, if_false, hp]
        rw [if_neg hle, if_neg hnt]
      rw [hres]
      have ihres := ih (t + 2) (nPeak + 1) (counter + 1) (by omega)
        (fun j hj => by
          have hh := hlow (j + 1) (by omega)
          rw [show nPeak + (j + 1) = nPeak + 1 + j by omega] at hh
          exact hh)
      refine ⟨ihres.1, ?_⟩
      simp only [List.count_cons, ihres.2]
      have h1' : (Ev.record == Ev.record) = true := by decide
      have h2' : (Ev.check false == Ev.record) = false := by decide
      simp [h1', h2']

theorem reel_loop_err (o : Oracle) (waitT : ℕ) (hEsc : ∀ τ, o.esc τ = false) :
    ∀ fuel k t nPeak counter, 1 ≤ k → k ≤ fuel → counter + k ≤ waitT + 1 →
      (∀ j, j + 1 < k → ∃ p, o.peak (nPeak + j) = some p ∧ ¬ (AUDIO_THRESHOLD < p)) →
      o.peak (nPeak + (k - 1)) = none →
      (reel_loop o waitT fuel t nPeak counter).2.2.2 = .acqErr ∧
        (reel_loop o waitT fuel t nPeak counter).1.count .record = k := by
  intro fuel
  induction fuel with
  | zero => intro k t nPeak counter h1 h2 _ _ _; omega
  | succ fuel ih =>
    intro k t nPeak counter h1 h2 h3 hlow herr
    by_cases hk : k = 1
    · subst hk
      rw [show nPeak + (1 - 1) = nPeak by omega] at herr
      have hres : reel_loop o waitT (fuel + 1) t nPeak counter
          = ([.check false, .record], t + 2, nPeak + 1, .acqErr) := by
        simp only [reel_loop, hEsc t, Bool.false_eq_true, if_false, herr]
      rw [hres]
      exact ⟨rfl, rfl⟩
    · obtain ⟨p, hp, hle⟩ := hlow 0 (by omega)
      rw [Nat.add_zero] at hp
      have hnt : ¬ (waitT < counter + 1) := by omega
      have hres : reel_loop o waitT (fuel + 1) t nPeak counter
          = (.check false :: .record ::
              (reel_loop o waitT fuel (t + 2) (nPeak + 1) (counter + 1)).1,
             (reel_loop o waitT fuel (t + 2) (nPeak + 1) (counter + 1)).2) := by
        simp only [reel_loop, hEsc t, Bool.false_eq_true, if_false, hp]
        rw [if_neg hle, if_neg hnt]
      rw [hres]
      have ihres := ih (k - 1) (t + 2) (nPeak + 1) (counter + 1) (by omega) (by omega) (by omega)
        (fun j hj => by
          have hh := hlow (j + 1) (by omega)
          rw [show nPeak + (j + 1) = nPeak + 1 + j by omega] at hh
          exact hh)
        (by
          have hh := herr
          rw [show nPeak + (k - 1) = nPeak + 1 + (k - 1 - 1) by omega] at hh
          exact hh)
      refine ⟨ihres.1, ?_⟩
      simp only [List.count_cons, ihres.2]
      have h1' : (Ev.record == Ev.record) = true := by decide
      have h2' : (Ev.check false == Ev.record) = false := by decide
      simp [h1', h2']
      omega

theorem reel_in_eq (o : Oracle) (waitT t n : ℕ) (hMic : o.mic t = true) :
    reel_in o waitT t n = reel_loop o waitT (waitT + 1) t n 0 := by
  simp [reel_in, hMic]

theorem lureStep_events (o : Oracle) (t n : ℕ) (last : Option ℚ) :
    ∀ e ∈ (lureStep o t n last).1, e = .lureKey := by
  intro e he
  unfold lureStep at he
  by_cases h : lureDue last (o.clock n) = true
  · rw [if_pos h] at he
    simpa using he
  · rw [if_neg h] at he
    simp at he

theorem reel_loop_events (o : Oracle) (waitT : ℕ) :
    ∀ fuel t n c, ∀ e ∈ (reel_loop o waitT fuel t n c).1,
      e = .check true ∨ e = .check false ∨ e = .record ∨ e = .reelClick := by
  intro fuel
  induction fuel with
  | zero => intro t n c e he; simp [reel_loop] at he
  | succ fuel ih =>
    intro t n c e he
    by_cases hesc : o.esc t = true
    · rw [show reel_loop o waitT (fuel + 1) t n c = ([.check true], t + 1, n, .escExit) by
        simp [reel_loop, hesc]] at he
      simp at he
      simp [he]
    · have hescf : o.esc t = false := Bool.eq_false_iff.mpr hesc
      cases hp : o.peak n with
      | none =>
        rw [show reel_loop o waitT (fuel + 1) t n c
            = ([.check false, .record], t + 2, n + 1, .acqErr) by
          simp [reel_loop, hescf, hp]] at he
        rcases List.mem_cons.mp he with h | h
        · simp [h]
        · simp at h
          simp [h]
      | some p =>
        by_cases hb : AUDIO_THRESHOLD < p
        · rw [show reel_loop o waitT (fuel + 1) t n c
              = ([.check false, .record, .reelClick], t + 3, n + 1, .reeled) by
            simp only [reel_loop, hescf, Bool.false_eq_true, if_false, hp]
            rw [if_pos hb]] at he
          rcases List.mem_cons.mp he with h | h
          · simp [h]
          · rcases List.mem_cons.mp h with h' | h'
            · simp [h']
            · simp at h'
              simp [h']
        · by_cases hto : waitT < c + 1
          · rw [show reel_loop o waitT (fuel + 1) t n c
                = ([.check false, .record], t + 2, n + 1, .timeout) by
              simp only [reel_loop, hescf, Bool.false_eq_true, if_false, hp]
              rw [if_neg hb, if_pos hto]] at he
            rcases List.mem_cons.mp he with h | h
            · simp [h]
            · simp at h
              simp [h]
          · rw [show reel_loop o waitT (fuel + 1) t n c
                = (.check false :: .record ::
                    (reel_loop o waitT fuel (t + 2) (n + 1) (c + 1)).1,
                   (reel_loop o waitT fuel (t + 2) (n + 1) (c + 1)).2) by
              simp only [reel_loop, hescf, Bool.false_eq_true, if_false, hp]
              rw [if_neg hb, if_neg hto]] at he
            rcases List.mem_cons.mp he with h | h
            · simp [h]
            · rcases List.mem_cons.mp h with h' | h'
              · simp [h']
              · exact ih (t + 2) (n + 1) (c + 1) e h'

theorem reel_in_events (o : Oracle) (waitT t n : ℕ) :
    ∀ e ∈ (reel_in o waitT t n).1,
      e = .check true ∨ e = .check false ∨ e = .record ∨ e = .reelClick := by
  intro e he
  unfold reel_in at he
  by_cases hm : o.mic t = true
  · rw [if_pos hm] at he
    exact reel_loop_events o waitT (waitT + 1) t n 0 e he
  · rw [if_neg hm] at he
    simp at he

theorem find_bob_step_events (o : Oracle) (region : Region) (ts : List Gray) (t nCap : ℕ) :
    ∀ e ∈ (find_bob_step o region ts t nCap).1,
      e = .check true ∨ e = .check false ∨ e = .capture true ∨ e = .capture false ∨
        e = .moveTo := by
  intro e he
  unfold find_bob_step at he
  by_cases hesc : o.esc t = true
  · rw [if_pos (by rw [hesc])] at he
    simp at he
    simp [he]
  · rw [if_neg (by rw [Bool.eq_false_iff.mpr hesc]; simp)] at he
    cases hcap : o.cap nCap with
    | none =>
      rw [hcap] at he
      simp at he
      rcases he with h | h <;> simp [h]
    | some shot =>
      simp only [hcap] at he
      cases hfb : find_bob region shot ts with
      | NotFound =>
        simp only [hfb] at he
        simp at he
        rcases he with h | h <;> simp [h]
      | Found c v hw =>
        simp only [hfb] at he
        simp at he
        rcases he with h | h | h <;> simp [h]

/-! ### The lure cooldown -/

theorem lure_run_within (l : ℚ) (xs : List ℚ)
    (h : ∀ x ∈ xs, ¬ (LURE_COOLDOWN < x - l)) :
    lure_run (some l) xs = (xs.map fun _ => false, some l) := by
  induction xs with
  | nil => rfl
  | cons x xs ih =>
    have hx : lureDue (some l) x = false := by
      simp [lureDue, h x (List.mem_cons_self _ _)]
    have hstep : apply_lure (some l) x = (false, some l) := by
      simp [apply_lure, hx]
    simp [lure_run, hstep, ih fun x' hx' => h x' (List.mem_cons_of_mem _ hx')]

end WetFish

namespace WetFish

/-! ### Cancellation: an observed check stops the run -/

theorem reel_loop_check_last (o : Oracle) (waitT : ℕ) :
    ∀ fuel t n c i,
      (reel_loop o waitT fuel t n c).1.get? i = some (.check true) →
      (reel_loop o waitT fuel t n c).2.2.2 = .escExit ∧
        i = (reel_loop o waitT fuel t n c).1.length - 1 := by
  intro fuel
  induction fuel with
  | zero => intro t n c i h; simp [reel_loop] at h
  | succ fuel ih =>
    intro t n c i h
    by_cases hesc : o.esc t = true
    · rw [show reel_loop o waitT (fuel + 1) t n c = ([.check true], t + 1, n, .escExit) by
        simp [reel_loop, hesc]] at h ⊢
      rcases i with _ | i
      · exact ⟨rfl, rfl⟩
      · simp at h
    · have hescf : o.esc t = false := Bool.eq_false_iff.mpr hesc
      cases hp : o.peak n with
      | none =>
        rw [show reel_loop o waitT (fuel + 1) t n c
            = ([.check false, .record], t + 2, n + 1, .acqErr) by
          simp [reel_loop, hescf, hp]] at h
        rcases i with _ | _ | i <;> simp at h
      | some p =>
        by_cases hb : AUDIO_THRESHOLD < p
        · rw [show reel_loop o waitT (fuel + 1) t n c
              = ([.check false, .record, .reelClick], t + 3, n + 1, .reeled) by
            simp only [reel_loop, hescf, Bool.false_eq_true, if_false, hp]
            rw [if_pos hb]] at h
          rcases i with _ | _ | _ | i <;> simp at h
        · by_cases hto : waitT < c + 1
          · rw [show reel_loop o waitT (fuel + 1) t n c
                = ([.check false, .record], t + 2, n + 1, .timeout) by
              simp only [reel_loop, hescf, Bool.false_eq_true, if_false, hp]
              rw [if_neg hb, if_pos hto]] at h
            rcases i with _ | _ | i <;> simp at h
          · rw [show reel_loop o waitT (fuel + 1) t n c
                = (.check false :: .record ::
                    (reel_loop o waitT fuel (t + 2) (n + 1) (c + 1)).1,
                   (reel_loop o waitT fuel (t + 2) (n + 1) (c + 1)).2) by
              simp only [reel_loop, hescf, Bool.false_eq_true, if_false, hp]
              rw [if_neg hb, if_neg hto]] at h ⊢
            rcases i with _ | _ | i
            · simp at h
            · simp at h
            · rw [List.get?_cons_succ, List.get?_cons_succ] at h
              obtain ⟨h1, h2⟩ := ih (t + 2) (n + 1) (c + 1) i h
              have hlen : i < (reel_loop o waitT fuel (t + 2) (n + 1) (c + 1)).1.length := by
                by_contra hcon
                rw [List.get?_eq_none.mpr (by omega)] at h
                cases h
              refine ⟨h1, ?_⟩
              simp only [List.length_cons]
              omega

theorem reel_in_check_last (o : Oracle) (waitT t n i : ℕ)
    (h : (reel_in o waitT t n).1.get? i = some (.check true)) :
    (reel_in o waitT t n).2.2.2 = .escExit ∧
      i = (reel_in o waitT t n).1.length - 1 := by
  unfold reel_in at h ⊢
  by_cases hm : o.mic t = true
  · rw [if_pos hm] at h ⊢
    exact reel_loop_check_last o waitT (waitT + 1) t n 0 i h
  · rw [if_neg hm] at h
    simp at h

theorem find_bob_step_check_last (o : Oracle) (region : Region) (ts : List Gray)
    (t nCap i : ℕ)
    (h : (find_bob_step o region ts t nCap).1.get? i = some (.check true)) :
    (find_bob_step o region ts t nCap).2.2.2 = none ∧
      i = (find_bob_step o region ts t nCap).1.length - 1 := by
  by_cases hesc : o.esc t = true
  · rw [show find_bob_step o region ts t nCap = ([.check true], t + 1, nCap, none) by
      simp [find_bob_step, hesc]] at h ⊢
    rcases i with _ | i
    · exact ⟨rfl, rfl⟩
    · simp at h
  · have hescf : o.esc t = false := Bool.eq_false_iff.mpr hesc
    cases hcap : o.cap nCap with
    | none =>
      rw [show find_bob_step o region ts t nCap
          = ([.check false, .capture false], t + 2, nCap + 1, some false) by
        simp [find_bob_step, hescf, hcap]] at h
      rcases i with _ | _ | i <;> simp at h
    | some shot =>
      cases hfb : find_bob region shot ts with
      | NotFound =>
        rw [show find_bob_step o region ts t nCap
            = ([.check false, .capture true], t + 2, nCap + 1, some false) by
          simp [find_bob_step, hescf, hcap, hfb]] at h
        rcases i with _ | _ | i <;> simp at h
      | Found c v hw =>
        rw [show find_bob_step o region ts t nCap
            = ([.check false, .capture true, .moveTo], t + 3, nCap + 1, some true) by
          simp [find_bob_step, hescf, hcap, hfb]] at h
        rcases i with _ | _ | _ | i <;> simp at h

end WetFish

namespace WetFish

theorem cycle_list_index (evsL : List Ev) (hLev : ∀ e ∈ evsL, e = .lureKey)
    (L2 : List Ev) (i : ℕ)
    (h : (.check false :: evsL ++ .castKey :: L2).get? i = some (.check true)) :
    ∃ j, i = evsL.length + 2 + j ∧ L2.get? j = some (.check true) := by
  rw [List.cons_append] at h
  rcases i with _ | i
  · simp at h
  · rw [List.get?_cons_succ] at h
    by_cases hi : i < evsL.length
    · rw [List.get?_append hi] at h
      have hmem := List.get?_mem h
      have hlk := hLev _ hmem
      simp at hlk
    · rw [List.get?_append_right (le_of_not_lt hi)] at h
      rcases hj : i - evsL.length with _ | j
      · rw [hj] at h
        simp at h
      · rw [hj, List.get?_cons_succ] at h
        exact ⟨j, by omega, h⟩

theorem cycle_list_length (evsL : List Ev) (L2 : List Ev) :
    (Ev.check false :: evsL ++ .castKey :: L2).length = evsL.length + 2 + L2.length := by
  simp [List.length_append]
  omega

theorem cycle_check_last (o : Oracle) (region : Region) (ts : List Gray) (waitT : ℕ)
    (st : St) (i : ℕ)
    (h : (cycle o region ts waitT st).1.get? i = some (.check true)) :
    (cycle o region ts waitT st).2 = none ∧
      i = (cycle o region ts waitT st).1.length - 1 := by
  by_cases hesc : o.esc st.t = true
  · rw [show cycle o region ts waitT st = ([.check true], none) by
      simp [cycle, hesc]] at h ⊢
    rcases i with _ | i
    · exact ⟨rfl, rfl⟩
    · simp at h
  · have hescf : o.esc st.t = false := Bool.eq_false_iff.mpr hesc
    rcases hL : lureStep o (st.t + 1) st.nClock st.lure with ⟨evsL, tL, nCl, lure1⟩
    have hLev := lureStep_events o (st.t + 1) st.nClock st.lure
    rw [hL] at hLev
    rcases hF : find_bob_step o region ts (tL + 1) st.nCap with ⟨evsF, tF, nCapF, ob⟩
    have hFlen : ∀ j, evsF.get? j = some (.check true) →
        ob = none ∧ j = evsF.length - 1 := by
      intro j hj
      have hFc := find_bob_step_check_last o region ts (tL + 1) st.nCap j
        (by rw [hF]; exact hj)
      rw [hF] at hFc
      exact hFc
    cases ob with
    | none =>
      have hres : cycle o region ts waitT st = (.check false :: evsL ++ .castKey :: evsF, none) := by
        simp [cycle, hescf, hL, hF]
      rw [hres] at h ⊢
      refine ⟨rfl, ?_⟩
      obtain ⟨j, hij, hj⟩ := cycle_list_index evsL hLev evsF i h
      obtain ⟨_, hjlen⟩ := hFlen j hj
      have hjlt : j < evsF.length := by
        by_contra hcon
        rw [List.get?_eq_none.mpr (by omega)] at hj
        cases hj
      rw [cycle_list_length]
      omega
    | some found =>
      have hFno : ∀ j, ¬ evsF.get? j = some (.check true) := by
        intro j hj
        obtain ⟨hc, _⟩ := hFlen j hj
        cases hc
      cases found with
      | false =>
        have hres : cycle o region ts waitT st
            = (.check false :: evsL ++ .castKey :: (evsF ++ [.backoff]),
               some ⟨tF + 1, nCl, nCapF, st.nPeak, lure1⟩) := by
          simp [cycle, hescf, hL, hF]
        rw [hres] at h
        exfalso
        obtain ⟨j, hij, hj⟩ := cycle_list_index evsL hLev (evsF ++ [.backoff]) i h
        by_cases hjF : j < evsF.length
        · rw [List.get?_append hjF] at hj
          exact hFno j hj
        · rw [List.get?_append_right (le_of_not_lt hjF)] at hj
          rcases hk : j - evsF.length with _ | k
          · rw [hk] at hj
            simp at hj
          · rw [hk] at hj
            simp at hj
      | true =>
        rcases hR : reel_in o waitT tF st.nPeak with ⟨evsR, tR, nPkR, res⟩
        have hRlen : ∀ j, evsR.get? j = some (.check true) →
            res = .escExit ∧ j = evsR.length - 1 := by
          intro j hj
          have hRc := reel_in_check_last o waitT tF st.nPeak j (by rw [hR]; exact hj)
          rw [hR] at hRc
          exact hRc
        by_cases hres : res = .escExit
        · have hcyc : cycle o region ts waitT st
              = (.check false :: evsL ++ .castKey :: (evsF ++ evsR), none) := by
            simp [cycle, hescf, hL, hF, hR, hres]
          rw [hcyc] at h ⊢
          refine ⟨rfl, ?_⟩
          obtain ⟨j, hij, hj⟩ := cycle_list_index evsL hLev (evsF ++ evsR) i h
          by_cases hjF : j < evsF.length
          · rw [List.get?_append hjF] at hj
            exact absurd hj (hFno j)
          · rw [List.get?_append_right (le_of_not_lt hjF)] at hj
            obtain ⟨_, hjlen⟩ := hRlen _ hj
            have hjlt : j - evsF.length < evsR.length := by
              by_contra hcon
              rw [List.get?_eq_none.mpr (by omega)] at hj
              cases hj
            rw [cycle_list_length]
            simp only [List.length_append]
            omega
        · have hcyc : cycle o region ts waitT st
              = (.check false :: evsL ++ .castKey :: (evsF ++ evsR),
                 some ⟨tR, nCl, nCapF, nPkR, lure1⟩) := by
            simp [cycle, hescf, hL, hF, hR, hres]
          rw [hcyc] at h
          exfalso
          obtain ⟨j, hij, hj⟩ := cycle_list_index evsL hLev (evsF ++ evsR) i h
          by_cases hjF : j < evsF.length
          · rw [List.get?_append hjF] at hj
            exact hFno j hj
          · rw [List.get?_append_right (le_of_not_lt hjF)] at hj
            obtain ⟨hcontra, _⟩ := hRlen _ hj
            exact hres hcontra

end WetFish

namespace WetFish

/-- C2: the audio wait reels in during the first window whose peak
strictly exceeds the threshold, with exactly that many acquisition
calls; it times out exactly when the counter strictly exceeds the
configured maximum without a bite (after `waitT + 1` acquisitions the
counter is `waitT + 1 > waitT`). -/
theorem claim_C2 (o : Oracle) (waitT t n : ℕ) (hEsc : ∀ τ, o.esc τ = false)
    (hMic : o.mic t = true) :
    (∀ k, 1 ≤ k → k ≤ waitT + 1 →
      (∀ j, j + 1 < k → ∃ p, o.peak (n + j) = some p ∧ ¬ (AUDIO_THRESHOLD < p)) →
      (∃ p, o.peak (n + (k - 1)) = some p ∧ AUDIO_THRESHOLD < p) →
      (reel_in o waitT t n).2.2.2 = .reeled ∧
        (reel_in o waitT t n).1.count .record = k) ∧
    ((∀ j, j < waitT + 1 → ∃ p, o.peak (n + j) = some p ∧ ¬ (AUDIO_THRESHOLD < p)) →
      (reel_in o waitT t n).2.2.2 = .timeout ∧
        (reel_in o waitT t n).1.count .record = waitT + 1) := by
  rw [reel_in_eq o waitT t n hMic]
  constructor
  · intro k h1 h2 hlow hbite
    exact reel_loop_bite o waitT hEsc (waitT + 1) k t n 0 h1 (by omega) (by omega) hlow hbite
  · intro hlow
    exact reel_loop_timeout o waitT hEsc (waitT + 1) t n 0 (by omega) hlow

theorem claim_C2_witness :
    (reel_in oBite 12 0 0).2.2.2 = .reeled ∧
      (reel_in oBite 12 0 0).1.count .record = 5 :=
  (claim_C2 oBite 12 0 0 (fun _ => rfl) rfl).1 5 (by norm_num) (by norm_num)
    (by
      intro j hj
      have hj4 : j < 4 := by omega
      interval_cases j <;> exact ⟨wLow, rfl, by decide⟩)
    ⟨wHigh, rfl, by decide⟩

/-- C3: the lure fires on the very first call (no stored timestamp);
with a stored timestamp it fires exactly when strictly more than the
600-second cooldown has elapsed; and across any number of cycles whose
clock readings stay within the cooldown window of the stored timestamp,
it never fires and the timestamp is unchanged. -/
theorem claim_C3 :
    (∀ now : ℚ, (apply_lure none now).1 = true) ∧
    (∀ l now : ℚ, (apply_lure (some l) now).1 = decide (LURE_COOLDOWN < now - l)) ∧
    (∀ (l : ℚ) (xs : List ℚ), (∀ x ∈ xs, ¬ (LURE_COOLDOWN < x - l)) →
      lure_run (some l) xs = (xs.map fun _ => false, some l)) := by
  refine ⟨fun now => rfl, fun l now => ?_, lure_run_within⟩
  unfold apply_lure lureDue
  by_cases h : LURE_COOLDOWN < now - l
  · simp [h]
  · simp [h]

theorem claim_C3_witness :
    (apply_lure none 0).1 = true ∧
    (apply_lure (some (0 : ℚ)) 601).1 = true ∧
    (apply_lure (some (2 : ℚ)) 601).1 = false ∧
    ((∀ x ∈ [(100 : ℚ), 300, 600], ¬ (LURE_COOLDOWN < x - 0)) ∧
      lure_run (some (0 : ℚ)) [100, 300, 600] = ([false, false, false], some 0)) := by
  have hh : ∀ x ∈ [(100 : ℚ), 300, 600], ¬ (LURE_COOLDOWN < x - 0) := by
    intro x hx
    fin_cases hx <;> norm_num [LURE_COOLDOWN]
  refine ⟨claim_C3.1 0, ?_, ?_, hh, claim_C3.2.2 0 _ hh⟩
  · rw [claim_C3.2.1 0 601]
    norm_num [LURE_COOLDOWN]
  · rw [claim_C3.2.1 2 601]
    norm_num [LURE_COOLDOWN]

/-- C4 (amended): whenever the cancellation flag is OBSERVED by one of
the checks (top of cycle, start of the visual search, top of each audio
window), that observation is the last event of the whole run — no
gesture fires after an observed cancellation.  (The original claim,
that no gesture fires once the flag is merely SET, is refuted by
`claim_C4_counterexample`: the lure and cast keypresses carry no check,
so a flag set right after the top-of-cycle check does not stop them.) -/
theorem claim_C4 (o : Oracle) (region : Region) (ts : List Gray) (waitT : ℕ) :
    ∀ fuel st i, (main_loop o region ts waitT fuel st).get? i = some (.check true) →
      i = (main_loop o region ts waitT fuel st).length - 1 := by
  intro fuel
  induction fuel with
  | zero => intro st i h; simp [main_loop] at h
  | succ fuel ih =>
    intro st i h
    rcases hC : cycle o region ts waitT st with ⟨evs, ost⟩
    cases ost with
    | none =>
      have hml : main_loop o region ts waitT (fuel + 1) st = evs := by
        simp [main_loop, hC]
      rw [hml] at h ⊢
      have hcl := cycle_check_last o region ts waitT st i (by rw [hC]; exact h)
      rw [hC] at hcl
      exact hcl.2
    | some st1 =>
      have hml : main_loop o region ts waitT (fuel + 1) st
          = evs ++ main_loop o region ts waitT fuel st1 := by
        simp [main_loop, hC]
      rw [hml] at h ⊢
      by_cases hi : i < evs.length
      · rw [List.get?_append hi] at h
        have hcl := cycle_check_last o region ts waitT st i (by rw [hC]; exact h)
        rw [hC] at hcl
        exact absurd hcl.1 (by simp)
      · rw [List.get?_append_right (le_of_not_lt hi)] at h
        have h2 := ih st1 (i - evs.length) h
        have hlt : i - evs.length < (main_loop o region ts waitT fuel st1).length := by
          by_contra hcon
          rw [List.get?_eq_none.mpr (by omega)] at h
          cases h
        rw [List.length_append]
        omega

theorem claim_C4_witness :
    (main_loop oEsc wRegion [] 12 1 st0).get? 3 = some (.check true) ∧
      3 = (main_loop oEsc wRegion [] 12 1 st0).length - 1 :=
  ⟨by decide, claim_C4 oEsc wRegion [] 12 1 st0 3 (by decide)⟩

/-- C4 counterexample: the flag is set from time 1 onward (each event
at list index `i` occurs at global time `i` here), yet the lure
keypress fires at time 1 and the cast keypress at time 2 — gestures
fire after the cancellation flag is set, refuting the claim as
stated. -/
theorem claim_C4_counterexample :
    oEsc.esc 1 = true ∧ oEsc.esc 2 = true ∧
    (main_loop oEsc wRegion [] 12 1 st0).get? 1 = some .lureKey ∧
    (main_loop oEsc wRegion [] 12 1 st0).get? 2 = some .castKey :=
  ⟨by decide, by decide, by decide, by decide⟩

end WetFish

namespace WetFish

theorem cycle_found_continue (o : Oracle) (region : Region) (ts : List Gray) (waitT : ℕ)
    (st : St) (evsL : List Ev) (tL nCl : ℕ) (lure1 : Option ℚ)
    (evsF : List Ev) (tF nCapF : ℕ) (evsR : List Ev) (tR nPkR : ℕ) (res : ReelRes)
    (hesc : o.esc st.t = false)
    (hL : lureStep o (st.t + 1) st.nClock st.lure = (evsL, tL, nCl, lure1))
    (hF : find_bob_step o region ts (tL + 1) st.nCap = (evsF, tF, nCapF, some true))
    (hR : reel_in o waitT tF st.nPeak = (evsR, tR, nPkR, res))
    (hres : ¬ res = .escExit) :
    cycle o region ts waitT st = (.check false :: evsL ++ .castKey :: (evsF ++ evsR),
      some ⟨tR, nCl, nCapF, nPkR, lure1⟩) := by
  simp [cycle, hesc, hL, hF, hR, hres]

theorem cycle_notfound (o : Oracle) (region : Region) (ts : List Gray) (waitT : ℕ)
    (st : St) (evsL : List Ev) (tL nCl : ℕ) (lure1 : Option ℚ)
    (evsF : List Ev) (tF nCapF : ℕ)
    (hesc : o.esc st.t = false)
    (hL : lureStep o (st.t + 1) st.nClock st.lure = (evsL, tL, nCl, lure1))
    (hF : find_bob_step o region ts (tL + 1) st.nCap = (evsF, tF, nCapF, some false)) :
    cycle o region ts waitT st = (.check false :: evsL ++ .castKey :: (evsF ++ [.backoff]),
      some ⟨tF + 1, nCl, nCapF, st.nPeak, lure1⟩) := by
  simp [cycle, hesc, hL, hF]

theorem cycle_found_no_backoff (o : Oracle) (region : Region) (ts : List Gray) (waitT : ℕ)
    (st : St) (evsL : List Ev) (tL nCl : ℕ) (lure1 : Option ℚ)
    (evsF : List Ev) (tF nCapF : ℕ) (evsR : List Ev) (tR nPkR : ℕ) (res : ReelRes)
    (hesc : o.esc st.t = false)
    (hL : lureStep o (st.t + 1) st.nClock st.lure = (evsL, tL, nCl, lure1))
    (hF : find_bob_step o region ts (tL + 1) st.nCap = (evsF, tF, nCapF, some true))
    (hR : reel_in o waitT tF st.nPeak = (evsR, tR, nPkR, res))
    (hres : ¬ res = .escExit) :
    Ev.backoff ∉ (cycle o region ts waitT st).1 := by
  rw [cycle_found_continue o region ts waitT st evsL tL nCl lure1 evsF tF nCapF evsR tR
    nPkR res hesc hL hF hR hres]
  intro hmem
  have hLev := lureStep_events o (st.t + 1) st.nClock st.lure
  rw [hL] at hLev
  have hFev := find_bob_step_events o region ts (tL + 1) st.nCap
  rw [hF] at hFev
  have hRev := reel_in_events o waitT tF st.nPeak
  rw [hR] at hRev
  rw [List.cons_append] at hmem
  rcases List.mem_cons.mp hmem with h | h
  · cases h
  · rcases List.mem_append.mp h with h' | h'
    · exact absurd (hLev _ h') (by decide)
    · rcases List.mem_cons.mp h' with h2 | h2
      · cases h2
      · rcases List.mem_append.mp h2 with h3 | h3
        · rcases hFev _ h3 with h4 | h4 | h4 | h4 | h4 <;> exact absurd h4 (by decide)
        · rcases hRev _ h3 with h4 | h4 | h4 | h4 <;> exact absurd h4 (by decide)

/-- C9: an acquisition error aborts the audio wait immediately (exactly
`k` acquisition calls occur when the `k`-th raises) with outcome
`acqErr`; and the controller treats `acqErr` exactly like `timeout`:
the cycle continues with the next cast (no process exit, no new state,
no backoff sleep). -/
theorem claim_C9 (o : Oracle) (region : Region) (ts : List Gray) (waitT : ℕ) :
    (∀ t n k, (∀ τ, o.esc τ = false) → o.mic t = true →
      1 ≤ k → k ≤ waitT + 1 →
      (∀ j, j + 1 < k → ∃ p, o.peak (n + j) = some p ∧ ¬ (AUDIO_THRESHOLD < p)) →
      o.peak (n + (k - 1)) = none →
      (reel_in o waitT t n).2.2.2 = .acqErr ∧
        (reel_in o waitT t n).1.count .record = k) ∧
    (∀ (st : St) (evsL : List Ev) (tL nCl : ℕ) (lure1 : Option ℚ)
      (evsF : List Ev) (tF nCapF : ℕ) (evsR : List Ev) (tR nPkR : ℕ) (res : ReelRes),
      o.esc st.t = false →
      lureStep o (st.t + 1) st.nClock st.lure = (evsL, tL, nCl, lure1) →
      find_bob_step o region ts (tL + 1) st.nCap = (evsF, tF, nCapF, some true) →
      reel_in o waitT tF st.nPeak = (evsR, tR, nPkR, res) →
      (res = .acqErr ∨ res = .timeout) →
      cycle o region ts waitT st = (.check false :: evsL ++ .castKey :: (evsF ++ evsR),
        some ⟨tR, nCl, nCapF, nPkR, lure1⟩) ∧
      Ev.backoff ∉ (cycle o region ts waitT st).1) := by
  constructor
  · intro t n k hEsc hMic h1 h2 hlow herr
    rw [reel_in_eq o waitT t n hMic]
    exact reel_loop_err o waitT hEsc (waitT + 1) k t n 0 h1 (by omega) (by omega) hlow herr
  · intro st evsL tL nCl lure1 evsF tF nCapF evsR tR nPkR res hesc hL hF hR hres
    have hne : ¬ res = .escExit := by
      rcases hres with h | h <;> (subst h; intro hc; cases hc)
    exact ⟨cycle_found_continue o region ts waitT st evsL tL nCl lure1 evsF tF nCapF evsR
        tR nPkR res hesc hL hF hR hne,
      cycle_found_no_backoff o region ts waitT st evsL tL nCl lure1 evsF tF nCapF evsR
        tR nPkR res hesc hL hF hR hne⟩

theorem claim_C9_witness :
    ((reel_in oErr 12 0 0).2.2.2 = .acqErr ∧
      (reel_in oErr 12 0 0).1.count .record = 3) ∧
    (cycle oErr wRegion [wTmpl] 12 st0
      = (.check false :: [.lureKey] ++ .castKey ::
          ([.check false, .capture true, .moveTo]
            ++ [.check false, .record, .check false, .record, .check false, .record]),
         some ⟨12, 1, 1, 3, some 0⟩) ∧
      Ev.backoff ∉ (cycle oErr wRegion [wTmpl] 12 st0).1) :=
  ⟨(claim_C9 oErr wRegion [wTmpl] 12).1 0 0 3 (fun _ => rfl) rfl (by norm_num) (by norm_num)
    (by
      intro j hj
      have hj2 : j < 2 := by omega
      interval_cases j <;> exact ⟨wLow, rfl, by decide⟩)
    rfl,
   (claim_C9 oErr wRegion [wTmpl] 12).2 st0 [.lureKey] 2 1 (some 0)
    [.check false, .capture true, .moveTo] 6 1
    [.check false, .record, .check false, .record, .check false, .record] 12 3 .acqErr
    rfl (by decide) (by decide) (by decide) (Or.inl rfl)⟩

/-- C10: when the bobber was found but the audio wait ends without a
bite (timeout, acquisition error, or audio-device lookup failure), the
next cycle starts immediately — no backoff event occurs; the randomized
backoff sleep occurs exactly on the bobber-not-found path. -/
theorem claim_C10 (o : Oracle) (region : Region) (ts : List Gray) (waitT : ℕ) :
    (∀ (st : St) (evsL : List Ev) (tL nCl : ℕ) (lure1 : Option ℚ)
      (evsF : List Ev) (tF nCapF : ℕ) (evsR : List Ev) (tR nPkR : ℕ) (res : ReelRes),
      o.esc st.t = false →
      lureStep o (st.t + 1) st.nClock st.lure = (evsL, tL, nCl, lure1) →
      find_bob_step o region ts (tL + 1) st.nCap = (evsF, tF, nCapF, some true) →
      reel_in o waitT tF st.nPeak = (evsR, tR, nPkR, res) →
      (res = .timeout ∨ res = .acqErr ∨ res = .noMic) →
      cycle o region ts waitT st = (.check false :: evsL ++ .castKey :: (evsF ++ evsR),
        some ⟨tR, nCl, nCapF, nPkR, lure1⟩) ∧
      Ev.backoff ∉ (cycle o region ts waitT st).1) ∧
    (∀ (st : St) (evsL : List Ev) (tL nCl : ℕ) (lure1 : Option ℚ)
      (evsF : List Ev) (tF nCapF : ℕ),
      o.esc st.t = false →
      lureStep o (st.t + 1) st.nClock st.lure = (evsL, tL, nCl, lure1) →
      find_bob_step o region ts (tL + 1) st.nCap = (evsF, tF, nCapF, some false) →
      cycle o region ts waitT st = (.check false :: evsL ++ .castKey :: (evsF ++ [.backoff]),
        some ⟨tF + 1, nCl, nCapF, st.nPeak, lure1⟩) ∧
      Ev.backoff ∈ (cycle o region ts waitT st).1) := by
  constructor
  · intro st evsL tL nCl lure1 evsF tF nCapF evsR tR nPkR res hesc hL hF hR hres
    have hne : ¬ res = .escExit := by
      rcases hres with h | h | h <;> (subst h; intro hc; cases hc)
    exact ⟨cycle_found_continue o region ts waitT st evsL tL nCl lure1 evsF tF nCapF evsR
        tR nPkR res hesc hL hF hR hne,
      cycle_found_no_backoff o region ts waitT st evsL tL nCl lure1 evsF tF nCapF evsR
        tR nPkR res hesc hL hF hR hne⟩
  · intro st evsL tL nCl lure1 evsF tF nCapF hesc hL hF
    have hcyc := cycle_notfound o region ts waitT st evsL tL nCl lure1 evsF tF nCapF
      hesc hL hF
    refine ⟨hcyc, ?_⟩
    rw [hcyc]
    rw [List.cons_append]
    refine List.mem_cons_of_mem _ ?_
    refine List.mem_append_right _ ?_
    refine List.mem_cons_of_mem _ ?_
    exact List.mem_append_right _ (List.mem_singleton_self _)

theorem claim_C10_witness :
    ((cycle oQuiet wRegion [wTmpl] 1 st0
      = (.check false :: [.lureKey] ++ .castKey ::
          ([.check false, .capture true, .moveTo]
            ++ [.check false, .record, .check false, .record]),
         some ⟨10, 1, 1, 2, some 0⟩) ∧
      Ev.backoff ∉ (cycle oQuiet wRegion [wTmpl] 1 st0).1) ∧
    (cycle oQuiet wRegion [] 1 st0
      = (.check false :: [.lureKey] ++ .castKey ::
          ([.check false, .capture true] ++ [.backoff]),
         some ⟨6, 1, 1, 0, some 0⟩) ∧
      Ev.backoff ∈ (cycle oQuiet wRegion [] 1 st0).1)) :=
  ⟨(claim_C10 oQuiet wRegion [wTmpl] 1).1 st0 [.lureKey] 2 1 (some 0)
    [.check false, .capture true, .moveTo] 6 1
    [.check false, .record, .check false, .record] 10 2 .timeout
    rfl (by decide) (by decide) (by decide) (Or.inl rfl),
   (claim_C10 oQuiet wRegion [] 1).2 st0 [.lureKey] 2 1 (some 0)
    [.check false, .capture true] 5 1 rfl (by decide) (by decide)⟩

/-- C8: when the screen capture raises, the search step reports
"not found" (`bob_found` stays `False`), no mouse move happens, the
loop does not terminate, and the cycle retries through the existing
not-found path including its backoff sleep. -/
theorem claim_C8 (o : Oracle) (region : Region) (ts : List Gray) (waitT : ℕ)
    (st : St) (evsL : List Ev) (tL nCl : ℕ) (lure1 : Option ℚ)
    (hesc : o.esc st.t = false)
    (hL : lureStep o (st.t + 1) st.nClock st.lure = (evsL, tL, nCl, lure1))
    (hesc2 : o.esc (tL + 1) = false)
    (hcap : o.cap st.nCap = none) :
    find_bob_step o region ts (tL + 1) st.nCap
      = ([.check false, .capture false], tL + 1 + 2, st.nCap + 1, some false) ∧
    cycle o region ts waitT st
      = (.check false :: evsL ++ .castKey :: ([.check false, .capture false] ++ [.backoff]),
         some ⟨tL + 1 + 2 + 1, nCl, st.nCap + 1, st.nPeak, lure1⟩) ∧
    Ev.moveTo ∉ (cycle o region ts waitT st).1 ∧
    Ev.backoff ∈ (cycle o region ts waitT st).1 := by
  have hF : find_bob_step o region ts (tL + 1) st.nCap
      = ([.check false, .capture false], tL + 1 + 2, st.nCap + 1, some false) := by
    simp [find_bob_step, hesc2, hcap]
  have hcyc := cycle_notfound o region ts waitT st evsL tL nCl lure1
    [.check false, .capture false] (tL + 1 + 2) (st.nCap + 1) hesc hL hF
  refine ⟨hF, hcyc, ?_, ?_⟩
  · rw [hcyc]
    intro hmem
    have hLev := lureStep_events o (st.t + 1) st.nClock st.lure
    rw [hL] at hLev
    rw [List.cons_append] at hmem
    rcases List.mem_cons.mp hmem with h | h
    · cases h
    · rcases List.mem_append.mp h with h' | h'
      · exact absurd (hLev _ h') (by decide)
      · rcases List.mem_cons.mp h' with h2 | h2
        · cases h2
        · simp at h2
  · rw [hcyc]
    rw [List.cons_append]
    refine List.mem_cons_of_mem _ ?_
    refine List.mem_append_right _ ?_
    refine List.mem_cons_of_mem _ ?_
    exact List.mem_append_right _ (List.mem_singleton_self _)

theorem claim_C8_witness :
    find_bob_step oCapFail wRegion [wTmpl] 3 0
      = ([.check false, .capture false], 5, 1, some false) ∧
    cycle oCapFail wRegion [wTmpl] 12 st0
      = (.check false :: [.lureKey] ++ .castKey ::
          ([.check false, .capture false] ++ [.backoff]),
         some ⟨6, 1, 1, 0, some 0⟩) ∧
    Ev.moveTo ∉ (cycle oCapFail wRegion [wTmpl] 12 st0).1 ∧
    Ev.backoff ∈ (cycle oCapFail wRegion [wTmpl] 12 st0).1 :=
  claim_C8 oCapFail wRegion [wTmpl] 12 st0 [.lureKey] 2 1 (some 0)
    rfl (by decide) rfl rfl

end WetFish

namespace WetFish

theorem scan_fold_zero (r t : Gray) (hall : ∀ q, nccPair r t q = (0, 0)) :
    ∀ (qs : List (ℕ × ℕ)) (q0 : ℕ × ℕ),
      qs.foldl (scanStep r t) (((0 : ℤ), (0 : ℤ)), q0) = (((0 : ℤ), (0 : ℤ)), q0) := by
  intro qs
  induction qs with
  | nil => intro q0; rfl
  | cons q' qs' ih =>
    intro q0
    simp only [List.foldl_cons]
    have hstep : scanStep r t (((0 : ℤ), (0 : ℤ)), q0) q' = (((0 : ℤ), (0 : ℤ)), q0) := by
      show (if pLt ((0 : ℤ), (0 : ℤ)) (nccPair r t q') then (nccPair r t q', q')
        else (((0 : ℤ), (0 : ℤ)), q0)) = (((0 : ℤ), (0 : ℤ)), q0)
      rw [hall q']
      rw [if_neg (by decide : ¬ (pLt ((0 : ℤ), (0 : ℤ)) ((0 : ℤ), (0 : ℤ)) = true))]
    rw [hstep]
    exact ih q0

/-- A constant template evaluates to the zero correlation pair at the
first offset. -/
theorem templateEval_const (r t : Gray) (hfits : fits r t)
    (hconst : ∀ p ∈ grid t, t.px p.1 p.2 = t.px 0 0) :
    ∃ q0, templateEval r t = some (((0 : ℤ), (0 : ℤ)), q0) := by
  have hall : ∀ q, nccPair r t q = (0, 0) :=
    fun q => nccPair_const_template r t q hconst
  cases heq : offsets r t with
  | nil =>
    have hmem := (mem_offsets r t (0, 0)).mpr ⟨by omega, by omega⟩
    rw [heq] at hmem
    cases hmem
  | cons q qs =>
    refine ⟨q, ?_⟩
    rw [templateEval_eq_cons r t q qs hfits heq, hall q]
    rw [scan_fold_zero r t hall qs q]

/-- In `wBig`, every 2x1 window other than the one at (50, 80) is
constant. -/
theorem wBig_other_const :
    ∀ q ∈ offsets wBig wTmpl, q ≠ (50, 80) →
      ∀ p ∈ grid wTmpl, wBig.px (q.1 + p.1) (q.2 + p.2) = wBig.px q.1 q.2 := by
  intro q hq hne p hp
  rw [mem_offsets] at hq
  obtain ⟨qx, qy⟩ := q
  obtain ⟨px1, py1⟩ := p
  have hqx : qx < 51 := by
    have := hq.1
    simpa [wBig, wTmpl] using this
  have hqy : qy < 81 := by
    have := hq.2
    simpa [wBig, wTmpl] using this
  have hp' : px1 < 2 ∧ py1 < 1 := by
    have hh := hp
    simp [grid, wTmpl, Finset.mem_product, Finset.mem_range] at hh
    obtain ⟨a, ha, ha2, ha3⟩ := hh
    omega
  have hne' : ¬ (qx = 50 ∧ qy = 80) := by
    intro hc
    exact hne (by rw [hc.1, hc.2])
  show wBig.px (qx + px1) (qy + py1) = wBig.px qx qy
  have h1 : ¬ (qx + px1 = 51 ∧ qy + py1 = 80) := by
    rintro ⟨ha, hb⟩
    omega
  have h2 : ¬ (qx = 51 ∧ qy = 80) := by omega
  show (if qx + px1 = 51 ∧ qy + py1 = 80 then (7 : ℤ) else 5)
    = (if qx = 51 ∧ qy = 80 then (7 : ℤ) else 5)
  rw [if_neg h1, if_neg h2]

theorem claim_C1_witness :
    ∃ ts1 twin ts2 loc, [wTmpl] = ts1 ++ twin :: ts2 ∧
      templateEval wShot twin = some (((8 : ℤ), (64 : ℤ)), loc) ∧
      ((1 : ℕ), (2 : ℕ)) = (twin.height, twin.width) ∧
      pLt BOBBER_MATCH_THRESHOLD ((8 : ℤ), (64 : ℤ)) = true ∧
      (∀ t' ∈ ts1, ∀ v' loc', templateEval wShot t' = some (v', loc') →
        pLt BOBBER_MATCH_THRESHOLD v' = true → pLt v' ((8 : ℤ), (64 : ℤ)) = true) ∧
      (∀ t' ∈ [wTmpl], ∀ v' loc', templateEval wShot t' = some (v', loc') →
        pLt ((8 : ℤ), (64 : ℤ)) v' = false) :=
  (claim_C1 wRegion wShot [wTmpl]).2 (8, 9) ((8 : ℤ), (64 : ℤ)) (1, 2) (by decide)

theorem claim_C6_witness :
    find_bob wRegion wShot [wTmpl] = .Found (8, 9) ((8 : ℤ), (64 : ℤ)) (1, 2) ∧
    ((3 : ℝ) / 5 < ((8 : ℤ) : ℝ) / Real.sqrt ((64 : ℤ) : ℝ) ∧
      0 ≤ ((8 : ℤ) : ℝ) / Real.sqrt ((64 : ℤ) : ℝ) ∧
      ((8 : ℤ) : ℝ) / Real.sqrt ((64 : ℤ) : ℝ) ≤ 1) :=
  ⟨by decide, claim_C6 wRegion wShot [wTmpl] (8, 9) ((8 : ℤ), (64 : ℤ)) (1, 2) (by decide)⟩

set_option maxRecDepth 400000 in
theorem claim_C7_witness :
    find_bob wRegion wBig [wT1, wTmpl]
      = .Found (wRegion.left + 50 + wTmpl.width / 2, wRegion.top + 80 + wTmpl.height / 2)
          (dT wTmpl, dT wTmpl * dT wTmpl) (wTmpl.height, wTmpl.width) ∧
    ((dT wTmpl : ℝ)) / Real.sqrt ((dT wTmpl * dT wTmpl : ℤ) : ℝ) = 1 := by
  obtain ⟨q0, hq0⟩ := templateEval_const wBig wT1 (by decide) (fun p _ => rfl)
  exact claim_C7.2 wRegion wBig wT1 wTmpl (by decide) (by decide) (by decide) (by decide)
    wBig_other_const (Or.inr ⟨((0 : ℤ), (0 : ℤ)), q0, hq0, by decide⟩)

end WetFish

namespace WetFish

/-- Fidelity of the cleared representation: the represented value
`nccN / sqrt (dT * dW)` equals the textbook TM_CCOEFF_NORMED value
computed from mean-subtracted pixels (mean = sum / area). -/
theorem nccPair_eq_ccoeff (r t : Gray) (o : ℕ × ℕ) (hfits : fits r t) :
    ((nccPair r t o).1 : ℝ) / Real.sqrt ((nccPair r t o).2 : ℝ)
      = (∑ p ∈ grid t, ((t.px p.1 p.2 : ℝ) - (tSum t : ℝ) / (area t : ℝ))
            * ((r.px (o.1 + p.1) (o.2 + p.2) : ℝ) - (wSum r t o : ℝ) / (area t : ℝ)))
        / Real.sqrt
          ((∑ p ∈ grid t, ((t.px p.1 p.2 : ℝ) - (tSum t : ℝ) / (area t : ℝ)) ^ 2)
            * ∑ p ∈ grid t,
                ((r.px (o.1 + p.1) (o.2 + p.2) : ℝ) - (wSum r t o : ℝ) / (area t : ℝ)) ^ 2) := by
  obtain ⟨h1, _, h3, _⟩ := hfits
  have hA : (0 : ℝ) < ((area t : ℤ) : ℝ) := by
    unfold area
    have hpos : (0 : ℕ) < t.width * t.height := Nat.mul_pos h1 h3
    exact_mod_cast hpos
  have hAne : ((area t : ℤ) : ℝ) ≠ 0 := ne_of_gt hA
  have htc : ∀ p : ℕ × ℕ, ((tC t p : ℤ) : ℝ)
      = ((area t : ℤ) : ℝ)
        * ((t.px p.1 p.2 : ℝ) - (tSum t : ℝ) / ((area t : ℤ) : ℝ)) := by
    intro p
    unfold tC
    push_cast
    field_simp
    ring
  have hwc : ∀ p : ℕ × ℕ, ((wC r t o p : ℤ) : ℝ)
      = ((area t : ℤ) : ℝ)
        * ((r.px (o.1 + p.1) (o.2 + p.2) : ℝ)
            - (wSum r t o : ℝ) / ((area t : ℤ) : ℝ)) := by
    intro p
    unfold wC
    push_cast
    field_simp
    ring
  have hnum : ((nccN r t o : ℤ) : ℝ)
      = ((area t : ℤ) : ℝ) ^ 2
        * ∑ p ∈ grid t, ((t.px p.1 p.2 : ℝ) - (tSum t : ℝ) / ((area t : ℤ) : ℝ))
            * ((r.px (o.1 + p.1) (o.2 + p.2) : ℝ)
                - (wSum r t o : ℝ) / ((area t : ℤ) : ℝ)) := by
    unfold nccN
    push_cast
    rw [Finset.mul_sum]
    refine Finset.sum_congr rfl fun p _ => ?_
    rw [htc p, hwc p]
    ring
  have hdT' : ((dT t : ℤ) : ℝ)
      = ((area t : ℤ) : ℝ) ^ 2
        * ∑ p ∈ grid t, ((t.px p.1 p.2 : ℝ) - (tSum t : ℝ) / ((area t : ℤ) : ℝ)) ^ 2 := by
    unfold dT
    push_cast
    rw [Finset.mul_sum]
    refine Finset.sum_congr rfl fun p _ => ?_
    rw [htc p]
    ring
  have hdW' : ((dW r t o : ℤ) : ℝ)
      = ((area t : ℤ) : ℝ) ^ 2
        * ∑ p ∈ grid t, ((r.px (o.1 + p.1) (o.2 + p.2) : ℝ)
            - (wSum r t o : ℝ) / ((area t : ℤ) : ℝ)) ^ 2 := by
    unfold dW
    push_cast
    rw [Finset.mul_sum]
    refine Finset.sum_congr rfl fun p _ => ?_
    rw [hwc p]
    ring
  have hden : ((dT t * dW r t o : ℤ) : ℝ)
      = (((area t : ℤ) : ℝ) ^ 2) ^ 2
        * ((∑ p ∈ grid t, ((t.px p.1 p.2 : ℝ) - (tSum t : ℝ) / ((area t : ℤ) : ℝ)) ^ 2)
            * ∑ p ∈ grid t, ((r.px (o.1 + p.1) (o.2 + p.2) : ℝ)
                - (wSum r t o : ℝ) / ((area t : ℤ) : ℝ)) ^ 2) := by
    push_cast
    rw [hdT', hdW']
    ring
  show ((nccN r t o : ℤ) : ℝ) / Real.sqrt ((dT t * dW r t o : ℤ) : ℝ) = _
  rw [hnum, hden, Real.sqrt_mul (by positivity) _, Real.sqrt_sq (by positivity)]
  exact mul_div_mul_left _ _ (by positivity)

end WetFish
